import Mathlib

/-!
Shallow embedding of the MAALogAnalyzer core (the `LogParser` class in
`src/utils/logParser.ts` and the search engine in
`src/views/TextSearchView.vue`), together with proofs settling the frozen
claims about the natural-language specification.

Strings manipulated character by character (file content, messages, search
patterns) are modelled as `List Char`; strings that are only stored and
compared (event messages, timestamps, names) are modelled as `String`.
`undefined`-able JavaScript fields become `Option`; JavaScript truthiness is
modelled explicitly (`jsOrS`, `JsVal.truthy`, ...).  `Date.parse` is kept
abstract as a parameter `getTime : String → Option Int` (`none` models `NaN`).
-/

set_option autoImplicit false

namespace MaaLog

/-! ## JavaScript string helpers -/

/-- The `\s` character class of JavaScript regexes, restricted to the ASCII
whitespace characters that occur in log text. -/
def isJsSpace (c : Char) : Bool :=
  c == ' ' || c == '\t' || c == '\n' || c == '\r' || c == '\x0b' || c == '\x0c'

/-- Model of JavaScript `String.prototype.trim` on char lists. -/
def trimChars (l : List Char) : List Char :=
  ((l.dropWhile isJsSpace).reverse.dropWhile isJsSpace).reverse

/-- Model of JavaScript `str.split('\n')`: the resulting segment list is never
empty, and contains one more segment than there are newline characters. -/
def splitNl : List Char → List (List Char)
  | [] => [[]]
  | c :: cs =>
    let r := splitNl cs
    if c = '\n' then [] :: r else (c :: r.headD []) :: r.tail

/-- JavaScript `String.prototype.includes`. -/
def isSubstr (pat : List Char) : List Char → Bool
  | [] => pat.isPrefixOf ([] : List Char)
  | c :: cs => pat.isPrefixOf (c :: cs) || isSubstr pat cs

/-- First index at which `pat` occurs in a list (JavaScript `indexOf`). -/
def firstIdx (pat : List Char) : List Char → Option Nat
  | [] => if pat = [] then some 0 else none
  | c :: cs => if pat.isPrefixOf (c :: cs) then some 0 else (firstIdx pat cs).map (· + 1)

/-- `s.replace(pat, '')` for a plain (non-regex) `pat`: removes the first
occurrence only.  In the source `pat` is always the bracketed parameter text
`'[' + param + ']'`, hence nonempty. -/
def replaceFirst : List Char → List Char → List Char
  | [], _ => []
  | c :: cs, pat =>
    if pat.isPrefixOf (c :: cs) then (c :: cs).drop pat.length
    else c :: replaceFirst cs pat

/-- Insert-or-replace for an association list, keeping the position of an
existing key: the model of `Map.set` / JavaScript object assignment, whose
insertion order is preserved on overwrite. -/
def upsertKV {α β : Type} [DecidableEq α] : List (α × β) → α → β → List (α × β)
  | [], k, v => [(k, v)]
  | (k', v') :: rest, k, v =>
    if k' = k then (k, v) :: rest else (k', v') :: upsertKV rest k v

/-! ## Search engine (`TextSearchView.vue`)

File content is a `List Char`; the streaming mode additionally receives the
content pre-cut into arbitrary chunks (`List (List Char)`), modelling the
decoded chunks delivered by the file stream (the stateful `TextDecoder`
guarantees chunk concatenation equals the content).  `maxResults` is the fixed
cap 500.  The externally settable abort flag is `false` throughout (no
cancellation), as in the claims under study. -/

structure SearchResult where
  lineNumber : Nat
  line : List Char
  matchStart : Nat
  matchEnd : Nat
  context : List Char
  deriving DecidableEq

/-- A line matcher: what `findMatchInLine` becomes once the search text and the
option flags are fixed.  Both search modes call the same matcher. -/
def Matcher := List Char → Option (Nat × Nat)

/-- The literal branch of `findMatchInLine`: plain `indexOf`, optionally on
lower-cased copies; the end offset always uses the original pattern length. -/
def litFind (caseSensitive : Bool) (pat line : List Char) : Option Nat :=
  if caseSensitive then firstIdx pat line
  else firstIdx (pat.map Char.toLower) (line.map Char.toLower)

/-- `findMatchInLine`.  In the regex branch the source calls
`line.match(searchPattern)` with a pattern compiled with the global flag;
`String.match` with a global regex returns a plain array of matched substrings
that has no `index` property, so `matchResult.index !== undefined` is never
true and the branch yields no match.  The branch is therefore the constant
`none`. -/
def findMatchInLine (useRegex caseSensitive : Bool) (pat : List Char)
    (line : List Char) : Option (Nat × Nat) :=
  if useRegex then none
  else
    match litFind caseSensitive pat line with
    | some i => some (i, i + pat.length)
    | none => none

/-- The scanning loop of `performNormalSearch`: lines in order, 0-based index,
stop (`break`) as soon as 500 results are accumulated. -/
def normalLoop (m : Matcher) : List (List Char) → Nat → List SearchResult → List SearchResult
  | [], _, acc => acc
  | l :: ls, idx, acc =>
    if 500 ≤ acc.length then acc
    else
      match m l with
      | some p => normalLoop m ls (idx + 1) (acc ++ [⟨idx + 1, l, p.1, p.2, l⟩])
      | none => normalLoop m ls (idx + 1) acc

/-- `performNormalSearch` (buffered mode): split the whole content on `'\n'`
and scan the lines. -/
def performNormalSearch (m : Matcher) (content : List Char) : List SearchResult :=
  normalLoop m (splitNl content) 0 []

/-- Loop state of `performStreamSearch`: the carry-over buffer for a partial
line, the running line number, the accumulated results, and whether the early
`return` on reaching the cap has fired. -/
structure StreamState where
  buffer : List Char
  lineNumber : Nat
  results : List SearchResult
  done : Bool
  deriving DecidableEq

/-- Processing of one completed line inside `performStreamSearch`:
`lineNumber++`, early return at the cap, otherwise match and push. -/
def streamLine (m : Matcher) (s : StreamState) (line : List Char) : StreamState :=
  if s.done then s
  else
    let ln := s.lineNumber + 1
    if 500 ≤ s.results.length then { s with lineNumber := ln, done := true }
    else
      match m line with
      | some p =>
        { s with lineNumber := ln, results := s.results ++ [⟨ln, line, p.1, p.2, line⟩] }
      | none => { s with lineNumber := ln }

/-- Processing of one decoded chunk: append to the buffer, split on `'\n'`,
hold back the last (possibly incomplete) fragment, scan the completed lines. -/
def streamChunk (m : Matcher) (s : StreamState) (chunk : List Char) : StreamState :=
  if s.done then s
  else
    let parts := splitNl (s.buffer ++ chunk)
    (parts.dropLast).foldl (streamLine m) { s with buffer := parts.getLastD [] }

/-- `performStreamSearch` (streaming mode): fold over the chunks, then handle
the final buffered line (skipped if the early return fired or the buffer is
empty, capped at 500). -/
def performStreamSearch (m : Matcher) (chunks : List (List Char)) : List SearchResult :=
  let s := chunks.foldl (streamChunk m) ⟨[], 0, [], false⟩
  if s.done then s.results
  else if s.buffer ≠ [] then
    match m s.buffer with
    | some p =>
      if s.results.length < 500 then
        s.results ++ [⟨s.lineNumber + 1, s.buffer, p.1, p.2, s.buffer⟩]
      else s.results
    | none => s.results
  else s.results

/-- One chunk of `countLinesInFile`: `lineCount += lines.length - 1`, keep the
last fragment as the new buffer. -/
def countChunk (s : List Char × Nat) (chunk : List Char) : List Char × Nat :=
  let parts := splitNl (s.1 ++ chunk)
  (parts.getLastD [], s.2 + (parts.length - 1))

/-- `countLinesInFile`: single pass counting newline splits, plus one for a
nonempty final fragment. -/
def countLinesInFile (chunks : List (List Char)) : Nat :=
  let s := chunks.foldl countChunk ([], 0)
  if s.1 ≠ [] then s.2 + 1 else s.2

/-- Reference enumeration of matches: all matches of `m` over a line list, in
order, numbering lines `idx+1, idx+2, ...` — the common specification both
search modes are proved to compute (up to the 500 cap). -/
def matchSeq (m : Matcher) : List (List Char) → Nat → List SearchResult
  | [], _ => []
  | l :: ls, idx =>
    match m l with
    | some p => ⟨idx + 1, l, p.1, p.2, l⟩ :: matchSeq m ls (idx + 1)
    | none => matchSeq m ls (idx + 1)

/-! ## Parameter values (`parseValue`)

Coerced parameter values.  `JSON.parse` (tried for `{`/`[`-prefixed values) is
kept abstract as a parameter `jp : List Char → Option JsVal` threaded through
the parser; a decimal literal (`parseFloat`) is kept symbolic as `vDec` to
avoid floating point. -/

inductive JsVal where
  | vStr (s : List Char)
  | vInt (n : Int)
  | vDec (raw : List Char)
  | vBool (b : Bool)
  | vObj (fields : List (List Char × List Char))
  | vArr (raw : List Char)
  deriving DecidableEq

/-- JavaScript truthiness of a parameter value.  A `vDec` raw literal matches
`-?\d+\.\d+` and is falsy exactly when its value is zero, i.e. when it has no
nonzero digit. -/
def JsVal.truthy : JsVal → Bool
  | .vStr s => s ≠ []
  | .vInt n => n ≠ 0
  | .vDec raw => raw.any fun c => c.isDigit ∧ c ≠ '0'
  | .vBool b => b
  | .vObj _ => true
  | .vArr _ => true

/-- `^-?\d+$`. -/
def isIntLit (v : List Char) : Bool :=
  match v with
  | '-' :: ds => ds ≠ [] ∧ ds.all (·.isDigit)
  | ds => ds ≠ [] ∧ ds.all (·.isDigit)

/-- `parseInt` on a digit string. -/
def digitsToNat (ds : List Char) : Nat :=
  ds.foldl (fun a c => a * 10 + (c.toNat - 48)) 0

/-- `parseInt` on a string matching `^-?\d+$`. -/
def parseIntLit (v : List Char) : Int :=
  match v with
  | '-' :: ds => -(digitsToNat ds : Int)
  | ds => (digitsToNat ds : Int)

/-- `^-?\d+\.\d+$`. -/
def isDecLit (v : List Char) : Bool :=
  let w := match v with | '-' :: ds => ds | ds => ds
  let a := w.takeWhile (·.isDigit)
  match w.drop a.length with
  | '.' :: b => a ≠ [] ∧ b ≠ [] ∧ b.all (·.isDigit)
  | _ => false

/-- `parseValue`: JSON attempt for `{`/`[`-prefixed text (raw string kept on
failure), boolean literals, integer, decimal, surrounding-quote stripping,
raw string fallback. -/
def parseValue (jp : List Char → Option JsVal) (v : List Char) : JsVal :=
  if v.head? = some '{' ∨ v.head? = some '[' then
    match jp v with
    | some j => j
    | none => .vStr v
  else if v = "true".toList then .vBool true
  else if v = "false".toList then .vBool false
  else if isIntLit v then .vInt (parseIntLit v)
  else if isDecLit v then .vDec v
  else if (v.head? = some '"' ∧ v.getLast? = some '"')
      ∨ (v.head? = some '\'' ∧ v.getLast? = some '\'') then
    .vStr (v.drop 1).dropLast
  else .vStr v

/-! ## Parameter & status extractor (`parseMessageAndParams`) -/

/-- One character of the inner bracket scan: braces are tracked first; `[`/`]`
adjust the bracket depth only while the brace depth is zero. -/
def scanUpd (c : Char) (d b : Int) : Int × Int :=
  if c = '{' then (d, b + 1)
  else if c = '}' then (d, b - 1)
  else if c = '[' then (if b = 0 then (d + 1, b) else (d, b))
  else if c = ']' then (if b = 0 then (d - 1, b) else (d, b))
  else (d, b)

/-- The inner `while (j < length && (depth > 0 || braceDepth > 0))` loop,
started just after an opening `[`: returns the number of characters consumed
and the final depths. -/
def bracketScan : List Char → Int → Int → Nat × Int × Int
  | [], d, b => (0, d, b)
  | c :: cs, d, b =>
    if d > 0 ∨ b > 0 then
      let p := scanUpd c d b
      let r := bracketScan cs p.1 p.2
      (r.1 + 1, r.2.1, r.2.2)
    else (0, d, b)

/-- The outer extraction scan: at a `[`, run the inner scan; if it closed the
span (final depth 0), record the span contents and resume after it, otherwise
advance one character (`i++`). -/
def extractParams : List Char → List (List Char)
  | [] => []
  | c :: cs =>
    if c = '[' then
      let r := bracketScan cs 1 0
      if r.2.1 = 0 then
        cs.take (r.1 - 1) :: extractParams (cs.drop r.1)
      else extractParams cs
    else extractParams cs
termination_by l => l.length
decreasing_by
  · simp only [List.length_cons]
    exact Nat.lt_succ_of_le (List.length_drop _ _ ▸ Nat.sub_le _ _)
  · simp
  · simp

/-- Fuel-indexed variant of the outer scan, one unit of fuel per outer loop
iteration; `none` on fuel exhaustion.  Used to state that the scan finishes
within a bounded number of iterations. -/
def extractParamsFuel : Nat → List Char → Option (List (List Char))
  | 0, _ => none
  | _ + 1, [] => some []
  | f + 1, c :: cs =>
    if c = '[' then
      let r := bracketScan cs 1 0
      if r.2.1 = 0 then
        (extractParamsFuel f (cs.drop r.1)).map (cs.take (r.1 - 1) :: ·)
      else extractParamsFuel f cs
    else extractParamsFuel f cs

/-- The `^([^=]+)=(.+)$` split of a parameter token: key before the first `=`,
nonempty value after it; `.` does not match a newline, so a value containing
one fails the match and the token is recorded as a flag. -/
def kvSplit (p : List Char) : Option (List Char × List Char) :=
  let k := p.takeWhile (· ≠ '=')
  match p.dropWhile (· ≠ '=') with
  | '=' :: v => if k ≠ [] ∧ v ≠ [] ∧ ¬ v.contains '\n' then some (k, v) else none
  | _ => none

inductive JsStatus where
  | enter
  | leave
  deriving DecidableEq

/-- The optional `,\s*(\d+)ms` part of the status regex, applied to the text
following the keyword: value and number of characters consumed. -/
def durTail (l : List Char) : Option (Nat × Nat) :=
  match l with
  | ',' :: r =>
    let r1 := r.dropWhile isJsSpace
    let ds := r1.takeWhile (·.isDigit)
    if ds ≠ [] ∧ "ms".toList.isPrefixOf (r1.drop ds.length) then
      some (digitsToNat ds, 1 + (r.length - r1.length) + ds.length + 2)
    else none
  | _ => none

/-- Attempt of `\s*(enter|leave)(?:,\s*(\d+)ms)?` on the text following a `|`:
status kind, optional duration, characters consumed after the `|`. -/
def statusTail (l : List Char) : Option (JsStatus × Option Nat × Nat) :=
  let r1 := l.dropWhile isJsSpace
  let w := l.length - r1.length
  if "enter".toList.isPrefixOf r1 then
    match durTail (r1.drop 5) with
    | some (n, k) => some (.enter, some n, w + 5 + k)
    | none => some (.enter, none, w + 5)
  else if "leave".toList.isPrefixOf r1 then
    match durTail (r1.drop 5) with
    | some (n, k) => some (.leave, some n, w + 5 + k)
    | none => some (.leave, none, w + 5)
  else none

/-- Match attempt of `\|\s*(enter|leave)(?:,\s*(\d+)ms)?` at an absolute
position of the message.  Used to state first-occurrence properties. -/
def statusAt (l : List Char) (p : Nat) : Option (JsStatus × Option Nat × Nat) :=
  match l.drop p with
  | c :: cs => if c = '|' then statusTail cs else none
  | [] => none

/-- Left-to-right search for the first position matching the status regex
(`match` is called without an anchor, so the occurrence may be anywhere). -/
def findStatus : List Char → Nat → Option (Nat × JsStatus × Option Nat × Nat)
  | [], _ => none
  | c :: cs, i =>
    if c = '|' then
      match statusTail cs with
      | some (k, d, n) => some (i, k, d, n)
      | none => findStatus cs (i + 1)
    else findStatus cs (i + 1)

/-- Whether the replacement regex `\|\s*(enter|leave).*$` matches at a `|`
whose following text is `cs`: keyword present and, because `.` does not match
a newline while `$` only matches at the very end, no newline after it. -/
def replaceHere (cs : List Char) : Bool :=
  let r1 := cs.dropWhile isJsSpace
  ("enter".toList.isPrefixOf r1 ∧ ¬ (r1.drop 5).contains '\n')
  ∨ ("leave".toList.isPrefixOf r1 ∧ ¬ (r1.drop 5).contains '\n')

/-- First position where the replacement regex matches. -/
def findReplacePos : List Char → Nat → Option Nat
  | [], _ => none
  | c :: cs, i =>
    if c = '|' ∧ replaceHere cs then some i else findReplacePos cs (i + 1)

/-- Match attempt of the replacement regex at an absolute position. -/
def replAt (l : List Char) (p : Nat) : Bool :=
  match l.drop p with
  | c :: cs => if c = '|' then replaceHere cs else false
  | [] => false

/-- Whether the status regex matches a suffix of the message: some position at
which the match consumes the remainder of the string.  Spec-side device used
to state the falsity of the trailing-suffix claim at a concrete input. -/
def hasTrailingStatus (l : List Char) : Bool :=
  (List.range l.length).any fun p =>
    match statusAt l p with
    | some r => p + 1 + r.2.2 = l.length
    | none => false

/-- The status-suffix step (lines 171-179 of the source): the first match of
the unanchored status regex sets `status`/`duration`; the separate replacement
regex truncates the message at its own first match and the result is
re-trimmed. -/
def extractStatus (clean : List Char) : List Char × Option JsStatus × Option Nat :=
  match findStatus clean 0 with
  | none => (clean, none, none)
  | some (_, k, d, _) =>
    let m := match findReplacePos clean 0 with
             | some p => trimChars (clean.take p)
             | none => trimChars clean
    (m, some k, d)

structure ParsedMsg where
  message : List Char
  params : List (List Char × JsVal)
  status : Option JsStatus
  duration : Option Nat
  deriving DecidableEq

/-- `parseMessageAndParams`: extract the bracketed parameter tokens, decode
them into the params map (later duplicate keys overwrite in place), remove the
first literal occurrence of each token from the message, trim, then run the
status-suffix step. -/
def parseMessageAndParams (jp : List Char → Option JsVal) (message : List Char) : ParsedMsg :=
  let ps := extractParams message
  let params := ps.foldl (fun acc p =>
    match kvSplit p with
    | some (k, v) => upsertKV acc (trimChars k) (parseValue jp (trimChars v))
    | none => upsertKV acc (trimChars p) (.vBool true)) []
  let clean := trimChars (ps.foldl (fun m p => replaceFirst m ('[' :: (p ++ [']']))) message)
  let r := extractStatus clean
  { message := r.1, params := params, status := r.2.1, duration := r.2.2 }

/-! ## Line decomposer (`parseLine`) -/

structure LogLine where
  timestamp : List Char
  level : List Char
  processId : List Char
  threadId : List Char
  sourceFile : Option (List Char)
  lineNumber : Option (List Char)
  functionName : Option (List Char)
  message : List Char
  params : List (List Char × JsVal)
  status : Option JsStatus
  duration : Option Nat
  lineIndex : Nat
  deriving DecidableEq

/-- One mandatory `\[([^\]]+)\]` group: nonempty bracket contents plus the
remaining text. -/
def takeBracket : List Char → Option (List Char × List Char)
  | '[' :: rest =>
    let content := rest.takeWhile (· ≠ ']')
    match rest.dropWhile (· ≠ ']') with
    | ']' :: tail => if content = [] then none else some (content, tail)
    | _ => none
  | _ => none

/-- One optional `(?:\[([^\]]+)\])?` group: greedy and, since everything after
it in the line regex always succeeds on newline-free text, deterministic. -/
def optBracket (l : List Char) : Option (List Char) × List Char :=
  match takeBracket l with
  | some (c, r) => (some c, r)
  | none => (none, l)

/-- The capture groups of the line regex. -/
structure Header where
  timestamp : List Char
  level : List Char
  processId : List Char
  threadId : List Char
  part1 : Option (List Char)
  part2 : Option (List Char)
  part3 : Option (List Char)
  rest : List Char
  deriving DecidableEq

/-- The structural part of the line regex
`^\[..\]\[..\]\[..\]\[..\](?:\[..\])?(?:\[..\])?(?:\[..\])?\s*(.*)$`:
four mandatory groups, up to three optional groups, skipped whitespace, rest.
`.` does not match `'\n'`, so a newline in the rest makes the whole regex
fail. -/
def splitHeader (line : List Char) : Option Header :=
  match takeBracket line with
  | none => none
  | some (ts, r1) =>
    match takeBracket r1 with
    | none => none
    | some (lvl, r2) =>
      match takeBracket r2 with
      | none => none
      | some (pid, r3) =>
        match takeBracket r3 with
        | none => none
        | some (tid, r4) =>
          let o1 := optBracket r4
          let o2 := optBracket o1.2
          let o3 := optBracket o2.2
          let msg := o3.2.dropWhile isJsSpace
          if msg.contains '\n' then none
          else some ⟨ts, lvl, pid, tid, o1.1, o2.1, o3.1, msg⟩

/-- The disambiguation of the optional groups (lines 66-80 of the source):
`part3` present takes the positional reading; a single part is a source file
when it contains `.cpp` or `.h` and a function name otherwise; two parts are
(sourceFile, lineNumber); the fields stay unset otherwise. -/
def assignParts (p1 p2 p3 : Option (List Char)) :
    Option (List Char) × Option (List Char) × Option (List Char) :=
  if p3.isSome then (p1, p2, p3)
  else if p1.isSome ∧ ¬ p2.isSome then
    match p1 with
    | some a =>
      if isSubstr (".cpp".toList) a ∨ isSubstr (".h".toList) a then (p1, none, none)
      else (none, none, p1)
    | none => (none, none, none)
  else if p1.isSome ∧ p2.isSome then (p1, p2, none)
  else (none, none, none)

/-- `parseLine`: decompose the header, disambiguate the optional fields, parse
message and parameters. -/
def parseLine (jp : List Char → Option JsVal) (line : List Char) (lineNum : Nat) :
    Option LogLine :=
  match splitHeader line with
  | none => none
  | some h =>
    let fields := assignParts h.part1 h.part2 h.part3
    let pr := parseMessageAndParams jp h.rest
    some { timestamp := h.timestamp, level := h.level, processId := h.processId,
           threadId := h.threadId,
           sourceFile := fields.1, lineNumber := fields.2.1, functionName := fields.2.2,
           message := pr.message, params := pr.params, status := pr.status,
           duration := pr.duration, lineIndex := lineNum }

/-! ## Event notification extractor (`parseEventNotification`, `parseFile`) -/

/-- The fixed event marker. -/
def marker : List Char := "!!!OnEventNotify!!!".toList

structure EventNotification where
  timestamp : List Char
  level : List Char
  message : JsVal
  details : JsVal
  lineIndex : Nat
  deriving DecidableEq

/-- `parseEventNotification`: requires the marker in the (cleaned) message and
a truthy `msg` parameter; `details || {}` falls back to the empty mapping for
a missing or falsy `details` parameter. -/
def parseEventNotification (ll : LogLine) : Option EventNotification :=
  if ¬ isSubstr marker ll.message then none
  else
    match ll.params.lookup ("msg".toList) with
    | none => none
    | some v =>
      if v.truthy then
        some { timestamp := ll.timestamp, level := ll.level, message := v,
               details :=
                 (match ll.params.lookup ("details".toList) with
                  | some d => if d.truthy then d else .vObj []
                  | none => .vObj []),
               lineIndex := ll.lineIndex }
      else none

/-- `parseFile`: split on `'\n'`, trim, skip blank lines, parse each line
(1-based numbering); a line whose raw text contains the marker additionally
goes through the event extractor, and a failed extraction is skipped without
affecting the parsed line list. -/
def parseFile (jp : List Char → Option JsVal) (content : List Char) :
    List LogLine × List EventNotification :=
  (List.enumFrom 1 (splitNl content)).foldl
    (fun acc p =>
      let rawLine := trimChars p.2
      if rawLine = [] then acc
      else
        match parseLine jp rawLine p.1 with
        | none => acc
        | some ll =>
          if isSubstr marker rawLine then
            match parseEventNotification ll with
            | some ev => (acc.1 ++ [ll], acc.2 ++ [ev])
            | none => (acc.1 ++ [ll], acc.2)
          else (acc.1 ++ [ll], acc.2))
    ([], [])

/-- Demo log line for the event-extraction claims: the marker is present and
the `msg` parameter exists but is the (falsy) integer 0. -/
def c8llA : LogLine :=
  { timestamp := "t".toList, level := "I".toList, processId := "1".toList,
    threadId := "2".toList, sourceFile := none, lineNumber := none, functionName := none,
    message := "!!!OnEventNotify!!!".toList,
    params := [("msg".toList, JsVal.vInt 0)], status := none, duration := none,
    lineIndex := 3 }

/-- Demo log line: truthy `msg`, but a present-and-falsy `details` parameter. -/
def c8llB : LogLine :=
  { timestamp := "t".toList, level := "I".toList, processId := "1".toList,
    threadId := "2".toList, sourceFile := none, lineNumber := none, functionName := none,
    message := "!!!OnEventNotify!!!".toList,
    params := [("msg".toList, JsVal.vStr ("E".toList)), ("details".toList, JsVal.vInt 0)],
    status := none, duration := none, lineIndex := 4 }

/-- The event the extractor produces from `c8llB`. -/
def c8evB : EventNotification :=
  { timestamp := "t".toList, level := "I".toList, message := JsVal.vStr ("E".toList),
    details := JsVal.vObj [], lineIndex := 4 }

/-! ## Task/node tree builder (`getTasks`, `getTaskNodes`)

The builder consumes `EventNotification`s whose `details` payload has been
JSON-decoded; it reads only a fixed set of fields of that payload, which the
`Details` structure records (each one optional, as in the duck-typed source).
Strings here are plain `String`s. -/

structure RecoDetails where
  reco_id : Option Int
  deriving DecidableEq

structure NodeDetails where
  name : Option String
  deriving DecidableEq

/-- One raw entry of a `NextList` event's `list` payload. -/
structure NextItemRaw where
  name : Option String
  anchor : Option Bool
  jump_back : Option Bool
  deriving DecidableEq

/-- The fields of an event's `details` payload that the builder reads. -/
structure Details where
  task_id : Option Int
  entry : Option String
  hash : Option String
  uuid : Option String
  name : Option String
  node_id : Option Int
  reco_id : Option Int
  reco_details : Option RecoDetails
  node_details : Option NodeDetails
  action_details : Option String
  focus : Option String
  list : Option (List NextItemRaw)
  deriving DecidableEq

/-- A `details` payload with every field absent. -/
def emptyDetails : Details :=
  ⟨none, none, none, none, none, none, none, none, none, none, none, none⟩

/-- The builder's view of one event notification. -/
structure TaskEvent where
  timestamp : String
  level : String
  message : String
  details : Details
  lineIndex : Nat
  deriving DecidableEq

/-- JavaScript `a || b` for an optional string `a` (falsy: absent or empty). -/
def jsOrS : Option String → String → String
  | some s, d => if s = "" then d else s
  | none, d => d

/-- JavaScript `a || b` for an optional boolean `a` (falsy: absent or false). -/
def jsOrB : Option Bool → Bool → Bool
  | some b, d => if b then b else d
  | none, d => d

/-- JavaScript `a || b` for an optional integer `a` (falsy: absent or zero). -/
def jsOrI : Option Int → Option Int → Option Int
  | some n, d => if n = 0 then d else some n
  | none, d => d

structure NestedNode where
  reco_id : Option Int
  name : String
  timestamp : String
  status : String
  reco_details : Option RecoDetails
  deriving DecidableEq

structure RecognitionAttempt where
  reco_id : Option Int
  name : String
  timestamp : String
  status : String
  reco_details : Option RecoDetails
  nested_nodes : Option (List NestedNode)
  deriving DecidableEq

structure NextItem where
  name : String
  anchor : Bool
  jump_back : Bool
  deriving DecidableEq

structure NodeInfo where
  node_id : Option Int
  name : String
  timestamp : String
  status : String
  task_id : Int
  reco_details : Option RecoDetails
  action_details : Option String
  focus : Option String
  next_list : List NextItem
  recognition_attempts : List RecognitionAttempt
  node_details : Option NodeDetails
  deriving DecidableEq

structure TaskInfo where
  task_id : Int
  entry : String
  hash : String
  uuid : String
  start_time : String
  end_time : Option String
  status : String
  nodes : List NodeInfo
  events : List TaskEvent
  duration : Option Int
  deriving DecidableEq

/-- The nested-node record built from a `Node.RecognitionNode.*` event
(`reco_details?.reco_id || node_id` for the id). -/
def mkNestedNode (e : TaskEvent) : NestedNode :=
  { reco_id := jsOrI (e.details.reco_details.bind RecoDetails.reco_id) e.details.node_id,
    name := jsOrS e.details.name "",
    timestamp := e.timestamp,
    status := if e.message = "Node.RecognitionNode.Succeeded" then "success" else "failed",
    reco_details := e.details.reco_details }

/-- The recognition attempt built from a `Node.Recognition.*` event, attaching
the buffered nested nodes (`undefined` when the buffer is empty). -/
def mkAttempt (e : TaskEvent) (ns : List NestedNode) : RecognitionAttempt :=
  { reco_id := e.details.reco_id,
    name := jsOrS e.details.name "",
    timestamp := e.timestamp,
    status := if e.message = "Node.Recognition.Succeeded" then "success" else "failed",
    reco_details := e.details.reco_details,
    nested_nodes := if 0 < ns.length then some ns else none }

/-- The defaulted copy of one `next_list` entry. -/
def normNext (it : NextItemRaw) : NextItem :=
  { name := jsOrS it.name "", anchor := jsOrB it.anchor false,
    jump_back := jsOrB it.jump_back false }

/-- The node built when a `Node.PipelineNode.*` event closes a node. -/
def mkNode (tid : Int) (e : TaskEvent) (nextL : List NextItemRaw)
    (atts : List RecognitionAttempt) : NodeInfo :=
  { node_id := e.details.node_id,
    name := jsOrS (e.details.node_details.bind NodeDetails.name) (jsOrS e.details.name ""),
    timestamp := e.timestamp,
    status := if e.message = "Node.PipelineNode.Succeeded" then "success" else "failed",
    task_id := tid,
    reco_details := e.details.reco_details,
    action_details := e.details.action_details,
    focus := e.details.focus,
    next_list := nextL.map normNext,
    recognition_attempts := atts,
    node_details := e.details.node_details }

/-- The per-task scan state of `getTaskNodes`: the pending-attempts buffer,
the nested-node buffer, the most recent next list, and the closed nodes. -/
structure ScanState where
  recognitionAttempts : List RecognitionAttempt
  nestedNodes : List NestedNode
  currentNextList : List NextItemRaw
  nodes : List NodeInfo
  deriving DecidableEq

/-- The initial scan state. -/
def initScan : ScanState := ⟨[], [], [], []⟩

/-- One event of the `getTaskNodes` loop body: the four `if` blocks in source
order (`NextList`, `RecognitionNode`, `Recognition`, `PipelineNode`). -/
def nodeStep (tid : Int) (s : ScanState) (e : TaskEvent) : ScanState :=
  let s1 :=
    if (e.message = "Node.NextList.Starting" ∨ e.message = "Node.NextList.Succeeded")
        ∧ e.details.task_id = some tid then
      let list := e.details.list.getD []
      if e.message = "Node.NextList.Succeeded" then { s with currentNextList := list }
      else if e.message = "Node.NextList.Starting" then { s with currentNextList := list }
      else s
    else s
  let s2 :=
    if e.message = "Node.RecognitionNode.Succeeded"
        ∨ e.message = "Node.RecognitionNode.Failed" then
      { s1 with nestedNodes := s1.nestedNodes ++ [mkNestedNode e] }
    else s1
  let s3 :=
    if e.message = "Node.Recognition.Succeeded" ∨ e.message = "Node.Recognition.Failed" then
      if e.details.task_id = some tid then
        { s2 with recognitionAttempts := s2.recognitionAttempts ++ [mkAttempt e s2.nestedNodes],
                  nestedNodes := [] }
      else { s2 with nestedNodes := [] }
    else s2
  if (e.message = "Node.PipelineNode.Succeeded" ∨ e.message = "Node.PipelineNode.Failed")
      ∧ e.details.task_id = some tid then
    { s3 with nodes := s3.nodes ++ [mkNode tid e s3.currentNextList s3.recognitionAttempts],
              recognitionAttempts := [] }
  else s3

/-- `event.message === 'Tasker.Task.Starting' && event.details.task_id === tid`. -/
def isStartFor (e : TaskEvent) (tid : Int) : Bool :=
  e.message = "Tasker.Task.Starting" ∧ e.details.task_id = some tid

/-- Terminal event (`Succeeded`/`Failed`) of the given task. -/
def isTermFor (e : TaskEvent) (tid : Int) : Bool :=
  (e.message = "Tasker.Task.Succeeded" ∨ e.message = "Tasker.Task.Failed")
  ∧ e.details.task_id = some tid

/-- The index-search loop of `getTaskNodes`: records the index of every
matching `Starting` event seen so far and breaks at the first matching
terminal event. -/
def findRangeAux (tid : Int) : List TaskEvent → Nat → Option Nat → Option Nat × Option Nat
  | [], _, st => (st, none)
  | e :: rest, i, st =>
    let st' := if isStartFor e tid then some i else st
    if isTermFor e tid then (st', some i)
    else findRangeAux tid rest (i + 1) st'

/-- `getTaskNodes`: find the task's event range (last matching `Starting`
before the first matching terminal; end of stream if the task never ends),
slice it, and fold the node scan over the slice. -/
def getTaskNodes (events : List TaskEvent) (tid : Int) : List NodeInfo :=
  match findRangeAux tid events 0 none with
  | (none, _) => []
  | (some st, en?) =>
    let en := en?.getD (events.length - 1)
    let taskEvents := (events.take (en + 1)).drop st
    (taskEvents.foldl (nodeStep tid) initScan).nodes

/-- One event of the `getTasks` loop: `Task.Starting` creates (truthy id
required), `Task.Succeeded`/`Task.Failed` mutates an existing entry.  `NaN`
durations (non-parsing timestamps) are modelled as `none`. -/
def tasksStep (getTime : String → Option Int) (m : List (Int × TaskInfo))
    (e : TaskEvent) : List (Int × TaskInfo) :=
  if e.message = "Tasker.Task.Starting" then
    match e.details.task_id with
    | some id =>
      if id ≠ 0 then
        upsertKV m id
          { task_id := id, entry := jsOrS e.details.entry "", hash := jsOrS e.details.hash "",
            uuid := jsOrS e.details.uuid "", start_time := e.timestamp, end_time := none,
            status := "running", nodes := [], events := [e], duration := none }
      else m
    | none => m
  else if e.message = "Tasker.Task.Succeeded" ∨ e.message = "Tasker.Task.Failed" then
    match e.details.task_id with
    | some id =>
      if id ≠ 0 then
        match m.lookup id with
        | some t =>
          upsertKV m id
            { t with
              status := if e.message = "Tasker.Task.Succeeded" then "succeeded" else "failed",
              end_time := some e.timestamp,
              events := t.events ++ [e],
              duration :=
                if t.start_time ≠ "" ∧ e.timestamp ≠ "" then
                  match getTime t.start_time, getTime e.timestamp with
                  | some a, some b => some (b - a)
                  | _, _ => none
                else t.duration }
        | none => m
      else m
    | none => m
  else m

/-- `getTasks`: fold the task map over all events, then fill each task's nodes
from the full event list. -/
def getTasks (getTime : String → Option Int) (events : List TaskEvent) : List TaskInfo :=
  let m := events.foldl (tasksStep getTime) []
  m.map fun kv => { kv.2 with nodes := getTaskNodes events kv.2.task_id }

/-! ### Structural companions of `getTaskNodes`

The following definitions re-express the index-and-slice computation of
`getTaskNodes` structurally; they are proved equal to it below and are used in
the induction proofs. -/

/-- Index of the first matching terminal event. -/
def firstTermIdx (tid : Int) : List TaskEvent → Option Nat
  | [] => none
  | e :: rest => if isTermFor e tid then some 0 else (firstTermIdx tid rest).map (· + 1)

/-- Index of the last matching `Starting` event occurring before the first
matching terminal event. -/
def lastStartB4 (tid : Int) : List TaskEvent → Option Nat
  | [] => none
  | e :: rest =>
    if isTermFor e tid then (if isStartFor e tid then some 0 else none)
    else
      match lastStartB4 tid rest with
      | some k => some (k + 1)
      | none => if isStartFor e tid then some 0 else none

/-- The suffix of the event list starting at the last matching `Starting`
before the first matching terminal. -/
def tailFromLastStart (tid : Int) : List TaskEvent → Option (List TaskEvent)
  | [] => none
  | e :: rest =>
    if isTermFor e tid then none
    else if isStartFor e tid then
      match tailFromLastStart tid rest with
      | some s => some s
      | none => some (e :: rest)
    else tailFromLastStart tid rest

/-- Truncation at (and including) the first matching terminal event. -/
def truncAtTerm (tid : Int) : List TaskEvent → List TaskEvent
  | [] => []
  | e :: rest => if isTermFor e tid then [e] else e :: truncAtTerm tid rest

/-- Structural version of `getTaskNodes`. -/
def getTaskNodesS (events : List TaskEvent) (tid : Int) : List NodeInfo :=
  match tailFromLastStart tid events with
  | none => []
  | some s => ((truncAtTerm tid s).foldl (nodeStep tid) initScan).nodes

/-- Every recognition attempt accounted once: the attempts inside closed nodes
followed by the still-pending buffer. -/
def allAttempts (s : ScanState) : List RecognitionAttempt :=
  (s.nodes.map NodeInfo.recognition_attempts).flatten ++ s.recognitionAttempts

/-- The sequence of recognition attempts the scan creates from an event list,
threading the nested-node buffer exactly as the scan does. -/
def madeAttempts (tid : Int) : List TaskEvent → List NestedNode → List RecognitionAttempt
  | [], _ => []
  | e :: rest, ns =>
    let ns1 :=
      if e.message = "Node.RecognitionNode.Succeeded"
          ∨ e.message = "Node.RecognitionNode.Failed" then ns ++ [mkNestedNode e]
      else ns
    if e.message = "Node.Recognition.Succeeded" ∨ e.message = "Node.Recognition.Failed" then
      if e.details.task_id = some tid then mkAttempt e ns1 :: madeAttempts tid rest []
      else madeAttempts tid rest []
    else madeAttempts tid rest ns1

/-- Event literal helper for the demonstration streams. -/
def mkEv (msg : String) (d : Details) (ts : String) : TaskEvent :=
  { timestamp := ts, level := "INFO", message := msg, details := d, lineIndex := 0 }

/-- Demonstration stream for the cross-task-isolation claim: task 1 runs one
node; in between, a nested `RecognitionNode` event tagged with task 2 arrives,
followed by a task-1 `Recognition` event. -/
def c1events : List TaskEvent :=
  [ mkEv "Tasker.Task.Starting" { emptyDetails with task_id := some 1, entry := some "E" } "t1",
    mkEv "Node.RecognitionNode.Succeeded"
      { emptyDetails with task_id := some 2, name := some "foreign", node_id := some 9 } "t2",
    mkEv "Node.Recognition.Succeeded"
      { emptyDetails with task_id := some 1, name := some "att", reco_id := some 5 } "t3",
    mkEv "Node.PipelineNode.Succeeded"
      { emptyDetails with task_id := some 1, node_details := some ⟨some "A"⟩, node_id := some 7 }
      "t4",
    mkEv "Tasker.Task.Succeeded" { emptyDetails with task_id := some 1 } "t5" ]

/-- Demonstration stream for the node-closing claim: the closing event carries
a `node_details.name` that is present but empty, next to a nonempty top-level
`name`. -/
def c2events : List TaskEvent :=
  [ mkEv "Tasker.Task.Starting" { emptyDetails with task_id := some 1 } "t1",
    mkEv "Node.PipelineNode.Succeeded"
      { emptyDetails with task_id := some 1, name := some "parent", node_details := some ⟨some ""⟩ }
      "t2",
    mkEv "Tasker.Task.Succeeded" { emptyDetails with task_id := some 1 } "t3" ]

/-- A `Node.Recognition.Failed` event tagged with a different task. -/
def c1foreignRecog : TaskEvent :=
  mkEv "Node.Recognition.Failed" { emptyDetails with task_id := some 2 } "x"

/-- The nested node the scan builds from the task-2 `RecognitionNode` event of
`c1events`. -/
def c1foreignNested : NestedNode :=
  { reco_id := some 9, name := "foreign", timestamp := "t2", status := "success",
    reco_details := none }

/-- The recognition attempt the scan builds from the task-1 `Recognition`
event of `c1events`; it carries the task-2 nested node. -/
def c1attempt : RecognitionAttempt :=
  { reco_id := some 5, name := "att", timestamp := "t3", status := "success",
    reco_details := none, nested_nodes := some [c1foreignNested] }

/-- The single node `getTaskNodes c1events 1` returns. -/
def c1node : NodeInfo :=
  { node_id := some 7, name := "A", timestamp := "t4", status := "success", task_id := 1,
    reco_details := none, action_details := none, focus := none, next_list := [],
    recognition_attempts := [c1attempt], node_details := some ⟨some "A"⟩ }

/-- The node the amended node-closing claim predicts: `node_details.name` is
used only when truthy (JavaScript `||`), falling back to a truthy event-level
`name`, then to the empty string; status mirrors Succeeded/Failed; the next
list and the buffered attempts are snapshotted. -/
def specCloseNode (tid : Int) (e : TaskEvent) (nextL : List NextItemRaw)
    (atts : List RecognitionAttempt) : NodeInfo :=
  { node_id := e.details.node_id,
    name := jsOrS (e.details.node_details.bind NodeDetails.name) (jsOrS e.details.name ""),
    timestamp := e.timestamp,
    status := if e.message = "Node.PipelineNode.Succeeded" then "success" else "failed",
    task_id := tid,
    reco_details := e.details.reco_details,
    action_details := e.details.action_details,
    focus := e.details.focus,
    next_list := nextL.map normNext,
    recognition_attempts := atts,
    node_details := e.details.node_details }

/-- The node-closing event of `c2events`. -/
def c2close : TaskEvent :=
  mkEv "Node.PipelineNode.Succeeded"
    { emptyDetails with task_id := some 1, name := some "parent", node_details := some ⟨some ""⟩ }
    "t2"

/-- A scan state with nonempty buffers, for the node-closing witness. -/
def c2state : ScanState :=
  { recognitionAttempts := [c1attempt], nestedNodes := [],
    currentNextList := [⟨some "n", some true, none⟩], nodes := [] }

/-- A timestamp parser for the lifecycle witness. -/
def c3getTime : String → Option Int :=
  fun s => if s = "t1" then some 100 else if s = "t2" then some 250 else none

/-- A `Tasker.Task.Starting` event for task 1. -/
def c3start : TaskEvent :=
  mkEv "Tasker.Task.Starting" { emptyDetails with task_id := some 1 } "t1"

/-- A `Tasker.Task.Succeeded` event for task 1. -/
def c3end : TaskEvent :=
  mkEv "Tasker.Task.Succeeded" { emptyDetails with task_id := some 1 } "t2"

/-- The running task entry `c3start` creates. -/
def c3run : TaskInfo :=
  { task_id := 1, entry := "", hash := "", uuid := "", start_time := "t1", end_time := none,
    status := "running", nodes := [], events := [c3start], duration := none }

/-- A stream in which task 1 starts but never terminates. -/
def c3events : List TaskEvent := [c3start]

/-- A `Tasker.Task.Starting` event carrying the falsy task id 0. -/
def c10ev : TaskEvent :=
  mkEv "Tasker.Task.Starting" { emptyDetails with task_id := some 0 } "t9"

/-- The invariant carried over the chunk fold of `performStreamSearch`. -/
def StreamInv (m : Matcher) (A : List Char) (s : StreamState) : Prop :=
  s.results = (matchSeq m (splitNl A).dropLast 0).take 500
  ∧ (s.done = false → s.buffer = (splitNl A).getLastD []
      ∧ s.lineNumber = (splitNl A).length - 1)
  ∧ (s.done = true → s.results.length = 500)

/-! # Theorems -/

/-! ## Lemmas about `splitNl` -/

theorem splitNl_nl (cs : List Char) : splitNl ('\n' :: cs) = [] :: splitNl cs := by
  simp [splitNl]

theorem splitNl_cons_ne (c : Char) (cs : List Char) (h : ¬ c = '\n') :
    splitNl (c :: cs) = (c :: (splitNl cs).headD []) :: (splitNl cs).tail := by
  simp [splitNl, h]

theorem splitNl_ne_nil (l : List Char) : splitNl l ≠ [] := by
  cases l with
  | nil => simp [splitNl]
  | cons c cs =>
    by_cases h : c = '\n'
    · subst h; rw [splitNl_nl]; simp
    · rw [splitNl_cons_ne _ _ h]; simp

theorem splitNl_append (a b : List Char) :
    splitNl (a ++ b) = (splitNl a).dropLast ++ splitNl ((splitNl a).getLastD [] ++ b) := by
  induction a with
  | nil => simp [splitNl]
  | cons c cs ih =>
    rcases hr : splitNl cs with _ | ⟨x, t⟩
    · exact absurd hr (splitNl_ne_nil cs)
    · by_cases h : c = '\n'
      · subst h
        rw [List.cons_append, splitNl_nl, splitNl_nl, ih, hr]
        cases t with
        | nil => simp
        | cons y t' => simp [List.getLastD_cons]
      · rw [List.cons_append, splitNl_cons_ne _ _ h, splitNl_cons_ne _ _ h, ih, hr]
        cases t with
        | nil =>
          simp only [List.headD_cons, List.tail_cons, List.getLastD_cons, List.getLastD_nil,
            List.dropLast_single, List.nil_append]
          rw [List.cons_append, splitNl_cons_ne _ _ h]
        | cons y t' => simp [List.getLastD_cons]

theorem length_splitNl (l : List Char) : (splitNl l).length = l.count '\n' + 1 := by
  induction l with
  | nil => simp [splitNl]
  | cons c cs ih =>
    by_cases h : c = '\n'
    · subst h; rw [splitNl_nl]; simp [ih, List.count_cons]
    · rw [splitNl_cons_ne _ _ h]
      rcases hr : splitNl cs with _ | ⟨x, t⟩
      · exact absurd hr (splitNl_ne_nil cs)
      · rw [hr] at ih
        simp only [List.length_cons, List.tail_cons] at ih ⊢
        simp [List.count_cons, h, ← ih]

theorem count_nl_getLastD_splitNl (l : List Char) :
    ((splitNl l).getLastD []).count '\n' = 0 := by
  induction l with
  | nil => simp [splitNl]
  | cons c cs ih =>
    by_cases h : c = '\n'
    · subst h; rw [splitNl_nl, List.getLastD_cons]
      rcases hr : splitNl cs with _ | ⟨x, t⟩
      · exact absurd hr (splitNl_ne_nil cs)
      · rw [hr] at ih; rw [List.getLastD_cons] at ih ⊢
        cases t with
        | nil => simpa using ih
        | cons y t' => exact ih
    · rw [splitNl_cons_ne _ _ h]
      rcases hr : splitNl cs with _ | ⟨x, t⟩
      · exact absurd hr (splitNl_ne_nil cs)
      · rw [hr] at ih
        rw [List.getLastD_cons] at ih ⊢
        cases t with
        | nil => simp at ih ⊢; simp [List.count_cons, h, ih]
        | cons y t' => simpa using ih

theorem splitNl_of_count_zero (l : List Char) (h : l.count '\n' = 0) :
    splitNl l = [l] := by
  induction l with
  | nil => simp [splitNl]
  | cons c cs ih =>
    rw [List.count_cons] at h
    by_cases hc : c = '\n'
    · simp [hc] at h
    · have hcs : cs.count '\n' = 0 := by omega
      rw [splitNl_cons_ne _ _ hc, ih hcs]; simp

/-! ## C9: line counting -/

/-- Generalized invariant of the `countLinesInFile` fold: a newline-free
carry-over buffer plus the count so far determine the state after the
remaining chunks. -/
theorem countChunk_foldl (cs : List (List Char)) :
    ∀ (buf : List Char) (n : Nat), buf.count '\n' = 0 →
      cs.foldl countChunk (buf, n)
        = ((splitNl (buf ++ cs.flatten)).getLastD [],
           n + ((splitNl (buf ++ cs.flatten)).length - 1)) := by
  induction cs with
  | nil =>
    intro buf n h
    simp [splitNl_of_count_zero buf h]
  | cons c cs ih =>
    intro buf n h
    have hbuf : ((splitNl (buf ++ c)).getLastD []).count '\n' = 0 :=
      count_nl_getLastD_splitNl _
    simp only [List.foldl_cons, countChunk]
    rw [ih _ _ hbuf]
    have happ := splitNl_append (buf ++ c) cs.flatten
    rw [Prod.mk.injEq]
    refine ⟨?_, ?_⟩
    · rw [List.flatten_cons, ← List.append_assoc, happ]
      conv_rhs => rw [List.getLastD_eq_getLast?,
        List.getLast?_append_of_ne_nil _ (splitNl_ne_nil _)]
      rw [List.getLastD_eq_getLast?]
    · rw [List.flatten_cons, ← List.append_assoc, happ]
      have h1 : (splitNl (buf ++ c)).length ≥ 1 :=
        List.length_pos.mpr (splitNl_ne_nil _)
      have h2 : (splitNl ((splitNl (buf ++ c)).getLastD [] ++ cs.flatten)).length ≥ 1 :=
        List.length_pos.mpr (splitNl_ne_nil _)
      rw [List.length_append, List.length_dropLast]
      omega

/-- C9, counterexample: on the content `"a"` (one chunk, no newline),
`countLinesInFile` reports 1 line while the content has 0 occurrences of
`'\n'`, so the reported count does not equal the number of `'\n'`
occurrences. -/
theorem c9_counterexample :
    countLinesInFile [['a']] = 1 ∧ List.count '\n' ['a'] = 0 ∧
      countLinesInFile [['a']] ≠ List.count '\n' ['a'] := by
  refine ⟨by decide, by decide, by decide⟩

/-- C4 helper theorems come before the claim theorem; see below. -/
theorem matchSeq_cons_some (m : Matcher) (l : List Char) (ls : List (List Char))
    (i : Nat) (p : Nat × Nat) (h : m l = some p) :
    matchSeq m (l :: ls) i = ⟨i + 1, l, p.1, p.2, l⟩ :: matchSeq m ls (i + 1) := by
  simp [matchSeq, h]

theorem matchSeq_cons_none (m : Matcher) (l : List Char) (ls : List (List Char))
    (i : Nat) (h : m l = none) :
    matchSeq m (l :: ls) i = matchSeq m ls (i + 1) := by
  simp [matchSeq, h]

theorem matchSeq_append (m : Matcher) (u v : List (List Char)) :
    ∀ i, matchSeq m (u ++ v) i = matchSeq m u i ++ matchSeq m v (i + u.length) := by
  induction u with
  | nil => intro i; simp [matchSeq]
  | cons l u ih =>
    intro i
    have harith : i + 1 + u.length = i + (u.length + 1) := by omega
    cases hml : m l with
    | some p =>
      rw [List.cons_append, matchSeq_cons_some m l _ i p hml,
        matchSeq_cons_some m l _ i p hml, ih (i + 1), List.length_cons, harith,
        List.cons_append]
    | none =>
      rw [List.cons_append, matchSeq_cons_none m l _ i hml,
        matchSeq_cons_none m l _ i hml, ih (i + 1), List.length_cons, harith]

theorem take_append_saturated {α : Type} (M X : List α) (n : Nat) (h : n ≤ M.length) :
    (M ++ X).take n = M.take n :=
  List.take_append_of_le_length h

theorem normalLoop_eq (m : Matcher) (ls : List (List Char)) :
    ∀ (idx : Nat) (acc : List SearchResult), acc.length ≤ 500 →
      normalLoop m ls idx acc = acc ++ (matchSeq m ls idx).take (500 - acc.length) := by
  induction ls with
  | nil => intro idx acc _; simp [normalLoop, matchSeq]
  | cons l ls ih =>
    intro idx acc hacc
    by_cases hc : 500 ≤ acc.length
    · have h500 : acc.length = 500 := Nat.le_antisymm hacc hc
      simp [normalLoop, hc, h500]
    · have hlt : acc.length < 500 := Nat.lt_of_not_le hc
      cases hml : m l with
      | some p =>
        simp only [normalLoop, matchSeq, hml, if_neg hc]
        rw [ih (idx + 1) (acc ++ [(⟨idx + 1, l, p.1, p.2, l⟩ : SearchResult)])
          (by simp only [List.length_append, List.length_cons, List.length_nil]; omega)]
        have h1 : 500 - acc.length = (500 - (acc.length + 1)) + 1 := by omega
        simp only [List.length_append, List.length_cons, List.length_nil]
        rw [h1, List.take_succ_cons, List.append_assoc]
        simp
      | none =>
        simp only [normalLoop, matchSeq, hml, if_neg hc]
        exact ih (idx + 1) acc hacc

theorem streamLine_done (m : Matcher) (s : StreamState) (l : List Char)
    (h : s.done = true) : streamLine m s l = s := by
  simp [streamLine, h]

theorem foldl_streamLine_done (m : Matcher) (L : List (List Char)) (s : StreamState)
    (h : s.done = true) : L.foldl (streamLine m) s = s := by
  induction L with
  | nil => rfl
  | cons l L ih => rw [List.foldl_cons, streamLine_done m s l h]; exact ih

theorem streamLine_foldl (m : Matcher) (L : List (List Char)) :
    ∀ (s : StreamState) (M : List SearchResult) (n : Nat),
      s.done = false → s.results = M.take 500 → s.lineNumber = n →
      (L.foldl (streamLine m) s).results = (M ++ matchSeq m L n).take 500
      ∧ (L.foldl (streamLine m) s).buffer = s.buffer
      ∧ ((L.foldl (streamLine m) s).done = false →
          (L.foldl (streamLine m) s).lineNumber = n + L.length)
      ∧ ((L.foldl (streamLine m) s).done = true →
          (L.foldl (streamLine m) s).results.length = 500) := by
  induction L with
  | nil =>
    intro s M n hd hres hln
    refine ⟨?_, rfl, fun _ => ?_, fun h => ?_⟩
    · simpa [matchSeq] using hres
    · simpa using hln
    · rw [List.foldl_nil] at h; rw [h] at hd; cases hd
  | cons l L ih =>
    intro s M n hd hres hln
    rw [List.foldl_cons]
    by_cases hc : 500 ≤ s.results.length
    · have hle : s.results.length ≤ 500 := by rw [hres]; simp [List.length_take]
      have hlen : s.results.length = 500 := by omega
      have hM : 500 ≤ M.length := by
        have := congrArg List.length hres
        simp only [List.length_take] at this
        omega
      have hstep : streamLine m s l = { s with lineNumber := s.lineNumber + 1, done := true } := by
        simp [streamLine, hd, hc]
      rw [hstep, foldl_streamLine_done m L _ rfl]
      refine ⟨?_, rfl, fun h => ?_, fun _ => ?_⟩
      · show s.results = _
        rw [take_append_saturated M _ 500 hM]
        exact hres
      · exact absurd h (by simp)
      · exact hlen
    · have hlt : s.results.length < 500 := Nat.lt_of_not_le hc
      have hMlt : M.length < 500 := by
        have := congrArg List.length hres
        simp only [List.length_take] at this
        omega
      have hMfull : M.take 500 = M := List.take_of_length_le (by omega)
      rw [hMfull] at hres
      cases hml : m l with
      | some p =>
        have hstep : streamLine m s l =
            { s with lineNumber := n + 1,
                     results := s.results ++ [(⟨n + 1, l, p.1, p.2, l⟩ : SearchResult)] } := by
          simp [streamLine, hd, hc, hml, hln]
        rw [hstep]
        have hres' : s.results ++ [(⟨n + 1, l, p.1, p.2, l⟩ : SearchResult)]
            = (M ++ [(⟨n + 1, l, p.1, p.2, l⟩ : SearchResult)]).take 500 := by
          rw [hres, List.take_of_length_le
            (by simp only [List.length_append, List.length_cons, List.length_nil]; omega)]
        obtain ⟨h1, h2, h3, h4⟩ :=
          ih { s with lineNumber := n + 1,
                      results := s.results ++ [(⟨n + 1, l, p.1, p.2, l⟩ : SearchResult)] }
            (M ++ [(⟨n + 1, l, p.1, p.2, l⟩ : SearchResult)]) (n + 1) hd hres' rfl
        refine ⟨?_, ?_, fun h => ?_, h4⟩
        · rw [h1, matchSeq_cons_some m l L n p hml]
          simp only [List.append_assoc, List.singleton_append]
        · exact h2
        · rw [h3 h]; simp only [List.length_cons]; omega
      | none =>
        have hstep : streamLine m s l = { s with lineNumber := n + 1 } := by
          simp [streamLine, hd, hc, hml, hln]
        rw [hstep]
        obtain ⟨h1, h2, h3, h4⟩ :=
          ih { s with lineNumber := n + 1 } M (n + 1) hd (by rw [hMfull]; exact hres) rfl
        refine ⟨?_, ?_, fun h => ?_, h4⟩
        · rw [h1, matchSeq_cons_none m l L n hml]
        · exact h2
        · rw [h3 h]; simp only [List.length_cons]; omega

theorem streamChunk_inv (m : Matcher) (A : List Char) (c : List Char) (s : StreamState)
    (h : StreamInv m A s) : StreamInv m (A ++ c) (streamChunk m s c) := by
  obtain ⟨hres, hnd, hdn⟩ := h
  have hsplit := splitNl_append A c
  have hQne : splitNl ((splitNl A).getLastD [] ++ c) ≠ [] := splitNl_ne_nil _
  have hdrop : (splitNl (A ++ c)).dropLast
      = (splitNl A).dropLast ++ (splitNl ((splitNl A).getLastD [] ++ c)).dropLast := by
    rw [hsplit, List.dropLast_append_of_ne_nil _ hQne]
  have hlast : (splitNl (A ++ c)).getLastD []
      = (splitNl ((splitNl A).getLastD [] ++ c)).getLastD [] := by
    rw [hsplit, List.getLastD_eq_getLast?, List.getLast?_append_of_ne_nil _ hQne,
      ← List.getLastD_eq_getLast?]
  cases hd : s.done with
  | true =>
    have hchunk : streamChunk m s c = s := by simp [streamChunk, hd]
    rw [hchunk]
    have h500 := hdn hd
    have hM : 500 ≤ (matchSeq m (splitNl A).dropLast 0).length := by
      have := congrArg List.length hres
      simp only [List.length_take] at this
      omega
    refine ⟨?_, fun hf => ?_, fun _ => h500⟩
    · rw [hdrop, matchSeq_append, take_append_saturated _ _ 500 hM, hres]
    · rw [hf] at hd; cases hd
  | false =>
    obtain ⟨hbuf, hln⟩ := hnd hd
    have hchunk : streamChunk m s c
        = ((splitNl (s.buffer ++ c)).dropLast).foldl (streamLine m)
            { s with buffer := (splitNl (s.buffer ++ c)).getLastD [] } := by
      simp [streamChunk, hd]
    have hAne : splitNl A ≠ [] := splitNl_ne_nil A
    have hlenA : 1 ≤ (splitNl A).length := List.length_pos.mpr hAne
    have hn : s.lineNumber = ((splitNl A).dropLast).length := by
      rw [hln, List.length_dropLast]
    obtain ⟨h1, h2, h3, h4⟩ := streamLine_foldl m ((splitNl (s.buffer ++ c)).dropLast)
      { s with buffer := (splitNl (s.buffer ++ c)).getLastD [] }
      (matchSeq m (splitNl A).dropLast 0) ((splitNl A).dropLast).length
      (by simpa using hd) (by simpa using hres) (by simpa using hn)
    rw [hchunk]
    refine ⟨?_, fun hf => ⟨?_, ?_⟩, h4⟩
    · rw [h1, hdrop, matchSeq_append, hbuf]
      simp only [Nat.zero_add]
    · rw [h2, hlast, hbuf]
    · have hQlen : 1 ≤ (splitNl ((splitNl A).getLastD [] ++ c)).length :=
        List.length_pos.mpr hQne
      rw [h3 hf, hbuf, hsplit, List.length_append, List.length_dropLast,
        List.length_dropLast]
      omega

theorem streamChunks_inv (m : Matcher) (cs : List (List Char)) :
    ∀ (A : List Char) (s : StreamState), StreamInv m A s →
      StreamInv m (A ++ cs.flatten) (cs.foldl (streamChunk m) s) := by
  induction cs with
  | nil => intro A s h; simpa using h
  | cons c cs ih =>
    intro A s h
    have := ih (A ++ c) (streamChunk m s c) (streamChunk_inv m A c s h)
    simpa [List.append_assoc] using this

/-- C4: streaming/buffered search equivalence.  For every search pattern and
option setting (literal or regex, case-sensitive or not) and every file
content, however it is chunked, the streaming-mode search returns exactly the
buffered-mode search's ordered result list.  (Both modes share
`findMatchInLine`; in the regex branch the global-flag `match` result has no
`index` property, so both modes yield no regex matches alike.) -/
theorem c4_stream_buffered_equiv (useRegex caseSensitive : Bool) (pat : List Char)
    (hpat : pat ≠ []) (chunks : List (List Char)) :
    performStreamSearch (findMatchInLine useRegex caseSensitive pat) chunks
      = performNormalSearch (findMatchInLine useRegex caseSensitive pat) chunks.flatten := by
  have hm : findMatchInLine useRegex caseSensitive pat [] = none := by
    cases useRegex with
    | true => simp [findMatchInLine]
    | false =>
      simp only [findMatchInLine, if_false, Bool.false_eq_true]
      cases caseSensitive with
      | true =>
        have : firstIdx pat [] = none := by simp [firstIdx, hpat]
        simp [litFind, this]
      | false =>
        have hne : pat.map Char.toLower ≠ [] := by simpa using hpat
        have : firstIdx (pat.map Char.toLower) [] = none := by simp [firstIdx, hne]
        simp [litFind, this]
  set m := findMatchInLine useRegex caseSensitive pat with hmdef
  have hinit : StreamInv m [] ⟨[], 0, [], false⟩ := by
    refine ⟨by simp [splitNl, matchSeq], fun _ => ⟨by simp [splitNl], by simp [splitNl]⟩,
      fun h => by cases h⟩
  have hinv := streamChunks_inv m chunks [] _ hinit
  rw [List.nil_append] at hinv
  obtain ⟨hres, hnd, hdn⟩ := hinv
  set A := chunks.flatten with hA
  set P := splitNl A with hP
  have hPne : P ≠ [] := splitNl_ne_nil A
  have hPdec : P.dropLast ++ [P.getLastD []] = P := by
    rw [List.getLastD_eq_getLast?, List.getLast?_eq_getLast _ hPne]
    simpa using List.dropLast_append_getLast hPne
  have hnormal : performNormalSearch m A = (matchSeq m P 0).take 500 := by
    unfold performNormalSearch
    rw [normalLoop_eq m _ 0 [] (by simp)]
    simp
  have hmsplit : matchSeq m P 0
      = matchSeq m P.dropLast 0 ++ matchSeq m [P.getLastD []] P.dropLast.length := by
    conv_lhs => rw [← hPdec]
    rw [matchSeq_append]
    simp
  unfold performStreamSearch
  cases hd : (chunks.foldl (streamChunk m) ⟨[], 0, [], false⟩).done with
  | true =>
    have h500 := hdn hd
    have hM : 500 ≤ (matchSeq m P.dropLast 0).length := by
      have := congrArg List.length hres
      simp only [List.length_take] at this
      omega
    rw [hnormal, hmsplit, take_append_saturated _ _ 500 hM]
    simpa [hd] using hres
  | false =>
    obtain ⟨hbuf, hln⟩ := hnd hd
    have hlenP : 1 ≤ P.length := List.length_pos.mpr hPne
    have hlnd : (chunks.foldl (streamChunk m) ⟨[], 0, [], false⟩).lineNumber
        = P.dropLast.length := by
      rw [hln, List.length_dropLast]
    by_cases hB : (chunks.foldl (streamChunk m) ⟨[], 0, [], false⟩).buffer = []
    · have hlastnil : P.getLastD [] = [] := by rw [← hbuf, hB]
      have hmB : m (P.getLastD []) = none := by rw [hlastnil]; exact hm
      have htail : matchSeq m [P.getLastD []] P.dropLast.length = [] := by
        rw [matchSeq_cons_none m _ _ _ hmB]; rfl
      rw [hnormal, hmsplit, htail, List.append_nil]
      simp only [hd, hB]
      simpa using hres
    · simp only [hd, hB, if_false, ne_eq, not_false_iff, if_true, Bool.false_eq_true]
      cases hml : m ((chunks.foldl (streamChunk m) ⟨[], 0, [], false⟩).buffer) with
      | some p =>
        have hmB : m (P.getLastD []) = some p := by rw [← hbuf]; exact hml
        have htail : matchSeq m [P.getLastD []] P.dropLast.length
            = [⟨P.dropLast.length + 1, P.getLastD [], p.1, p.2, P.getLastD []⟩] := by
          rw [matchSeq_cons_some m _ _ _ p hmB]; rfl
        by_cases hcap : (chunks.foldl (streamChunk m) ⟨[], 0, [], false⟩).results.length < 500
        · have hMlt : (matchSeq m P.dropLast 0).length < 500 := by
            have := congrArg List.length hres
            simp only [List.length_take] at this
            omega
          have hMfull : (matchSeq m P.dropLast 0).take 500 = matchSeq m P.dropLast 0 :=
            List.take_of_length_le (by omega)
          have hlen2 : (matchSeq m P.dropLast 0
              ++ [(⟨P.dropLast.length + 1, P.getLastD [], p.1, p.2, P.getLastD []⟩
                    : SearchResult)]).length ≤ 500 := by
            simp only [List.length_append, List.length_cons, List.length_nil]
            omega
          rw [hnormal, hmsplit, htail, List.take_of_length_le hlen2]
          simp only [hcap, if_true]
          rw [hres, hMfull, hbuf, hlnd]
        · have hcap500 : (chunks.foldl (streamChunk m) ⟨[], 0, [], false⟩).results.length
              = 500 := by
            have hle : (chunks.foldl (streamChunk m) ⟨[], 0, [], false⟩).results.length
                ≤ 500 := by
              rw [hres]; simp [List.length_take]
            omega
          have hM : 500 ≤ (matchSeq m P.dropLast 0).length := by
            have := congrArg List.length hres
            simp only [List.length_take] at this
            omega
          rw [hnormal, hmsplit, take_append_saturated _ _ 500 hM]
          simp only [hcap, if_false]
          exact hres
      | none =>
        have hmB : m (P.getLastD []) = none := by rw [← hbuf]; exact hml
        have htail : matchSeq m [P.getLastD []] P.dropLast.length = [] := by
          rw [matchSeq_cons_none m _ _ _ hmB]; rfl
        rw [hnormal, hmsplit, htail, List.append_nil]
        simpa using hres

/-- Witness for C4 at a concrete pattern, options and chunking. -/
theorem c4_witness :
    ("b".toList ≠ []) ∧
      performStreamSearch (findMatchInLine false true ("b".toList))
          [("ab\nx".toList), ("b\nc".toList)]
        = performNormalSearch (findMatchInLine false true ("b".toList))
            ([("ab\nx".toList), ("b\nc".toList)] : List (List Char)).flatten :=
  ⟨by decide, c4_stream_buffered_equiv false true ("b".toList) (by decide) _⟩

/-! ## C7: status-suffix extraction -/

theorem statusAt_cons_succ (c : Char) (cs : List Char) (p : Nat) :
    statusAt (c :: cs) (p + 1) = statusAt cs p := rfl

theorem replAt_cons_succ (c : Char) (cs : List Char) (p : Nat) :
    replAt (c :: cs) (p + 1) = replAt cs p := rfl

theorem statusAt_nil (p : Nat) : statusAt [] p = none := by
  cases p <;> rfl

theorem statusAt_cons_zero (c : Char) (cs : List Char) :
    statusAt (c :: cs) 0 = if c = '|' then statusTail cs else none := rfl

theorem replAt_cons_zero (c : Char) (cs : List Char) :
    replAt (c :: cs) 0 = if c = '|' then replaceHere cs else false := rfl

theorem findStatus_least : ∀ (l : List Char) (i p : Nat) (k : JsStatus)
    (d : Option Nat) (n : Nat),
    statusAt l p = some (k, d, n) → (∀ q, q < p → statusAt l q = none) →
    findStatus l i = some (p + i, k, d, n) := by
  intro l
  induction l with
  | nil => intro i p k d n hp _; rw [statusAt_nil] at hp; cases hp
  | cons c cs ih =>
    intro i p k d n hp hlt
    cases p with
    | zero =>
      rw [statusAt_cons_zero] at hp
      by_cases hc : c = '|'
      · rw [if_pos hc] at hp
        simp only [findStatus, if_pos hc, hp, Nat.zero_add]
      · rw [if_neg hc] at hp; cases hp
    | succ p =>
      have h0 := hlt 0 (Nat.succ_pos p)
      rw [statusAt_cons_succ] at hp
      have hcs : ∀ q, q < p → statusAt cs q = none := by
        intro q hq
        have := hlt (q + 1) (by omega)
        rwa [statusAt_cons_succ] at this
      have hrec := ih (i + 1) p k d n hp hcs
      have harith : p + (i + 1) = p + 1 + i := by omega
      rw [harith] at hrec
      by_cases hc : c = '|'
      · rw [statusAt_cons_zero, if_pos hc] at h0
        simp only [findStatus, if_pos hc, h0, hrec]
      · simp only [findStatus, if_neg hc, hrec]

theorem findStatus_none : ∀ (l : List Char) (i : Nat),
    (∀ p, statusAt l p = none) → findStatus l i = none := by
  intro l
  induction l with
  | nil => intro i _; rfl
  | cons c cs ih =>
    intro i hall
    have h0 := hall 0
    have hcs : ∀ p, statusAt cs p = none := by
      intro p
      have := hall (p + 1)
      rwa [statusAt_cons_succ] at this
    by_cases hc : c = '|'
    · rw [statusAt_cons_zero, if_pos hc] at h0
      simp only [findStatus, if_pos hc, h0, ih (i + 1) hcs]
    · simp only [findStatus, if_neg hc, ih (i + 1) hcs]

theorem findReplacePos_least : ∀ (l : List Char) (i p : Nat),
    replAt l p = true → (∀ q, q < p → replAt l q = false) →
    findReplacePos l i = some (p + i) := by
  intro l
  induction l with
  | nil => intro i p hp _; cases p <;> cases hp
  | cons c cs ih =>
    intro i p hp hlt
    cases p with
    | zero =>
      rw [replAt_cons_zero] at hp
      by_cases hc : c = '|'
      · rw [if_pos hc] at hp
        simp only [findReplacePos, if_pos (And.intro hc hp), Nat.zero_add]
      · rw [if_neg hc] at hp; cases hp
    | succ p =>
      have h0 := hlt 0 (Nat.succ_pos p)
      rw [replAt_cons_succ] at hp
      have hcs : ∀ q, q < p → replAt cs q = false := by
        intro q hq
        have := hlt (q + 1) (by omega)
        rwa [replAt_cons_succ] at this
      have hrec := ih (i + 1) p hp hcs
      have harith : p + (i + 1) = p + 1 + i := by omega
      rw [harith] at hrec
      have hcond : ¬ (c = '|' ∧ replaceHere cs) := by
        intro ⟨hc, hrh⟩
        rw [replAt_cons_zero, if_pos hc] at h0
        rw [hrh] at h0; cases h0
      simp only [findReplacePos, if_neg hcond, hrec]

/-- Bridge between the match regex and the replacement regex: on newline-free
text they match at exactly the same positions. -/
theorem replAt_iff_statusAt (l : List Char) (hnl : l.contains '\n' = false) (p : Nat) :
    replAt l p = true ↔ (statusAt l p).isSome := by
  have hmem : ('\n' : Char) ∉ l := by
    intro hmem
    rw [show l.contains '\n' = List.elem '\n' l from rfl] at hnl
    rw [List.elem_iff.mpr hmem] at hnl
    cases hnl
  cases hdrop : l.drop p with
  | nil =>
    unfold replAt statusAt
    rw [hdrop]
    simp
  | cons c cs =>
    have hcs : ¬ cs.contains '\n' := by
      intro hin
      apply hmem
      have : ('\n' : Char) ∈ cs := List.elem_iff.mp hin
      have hsub : (c :: cs).Sublist l := hdrop ▸ List.drop_sublist p l
      exact hsub.mem (List.mem_cons_of_mem c this)
    have hnotail : (((cs.dropWhile isJsSpace).drop 5).contains '\n') = false := by
      by_contra hcon
      apply hcs
      rw [Bool.not_eq_false] at hcon
      have : ('\n' : Char) ∈ (cs.dropWhile isJsSpace).drop 5 := List.elem_iff.mp hcon
      have hsub : ((cs.dropWhile isJsSpace).drop 5).Sublist cs :=
        ((List.drop_sublist 5 _).trans (List.dropWhile_sublist _))
      exact List.elem_iff.mpr (hsub.mem this)
    have hre : replAt l p = if c = '|' then replaceHere cs else false := by
      unfold replAt; rw [hdrop]
    have hse : statusAt l p = if c = '|' then statusTail cs else none := by
      unfold statusAt; rw [hdrop]
    rw [hre, hse]
    by_cases hc : c = '|'
    · rw [if_pos hc, if_pos hc]
      by_cases he : "enter".toList.isPrefixOf (cs.dropWhile isJsSpace) = true
      · have h2 : (statusTail cs).isSome = true := by
          unfold statusTail
          rw [if_pos he]
          cases durTail ((cs.dropWhile isJsSpace).drop 5) with
          | some r => obtain ⟨a, b⟩ := r; simp
          | none => simp
        have h1 : replaceHere cs = true := by
          unfold replaceHere
          simp only [Bool.decide_or, Bool.decide_and, Bool.or_eq_true, Bool.and_eq_true,
            decide_eq_true_eq]
          exact Or.inl ⟨he, fun hco => by rw [hco] at hnotail; cases hnotail⟩
        rw [h1, h2]
      · by_cases hl : "leave".toList.isPrefixOf (cs.dropWhile isJsSpace) = true
        · have h2 : (statusTail cs).isSome = true := by
            unfold statusTail
            rw [if_neg he, if_pos hl]
            cases durTail ((cs.dropWhile isJsSpace).drop 5) with
            | some r => obtain ⟨a, b⟩ := r; simp
            | none => simp
          have h1 : replaceHere cs = true := by
            unfold replaceHere
            simp only [Bool.decide_or, Bool.decide_and, Bool.or_eq_true, Bool.and_eq_true,
              decide_eq_true_eq]
            exact Or.inr ⟨hl, fun hco => by rw [hco] at hnotail; cases hnotail⟩
          rw [h1, h2]
        · have h2 : (statusTail cs).isSome = false := by
            unfold statusTail
            rw [if_neg he, if_neg hl]
            rfl
          have h1 : replaceHere cs = false := by
            unfold replaceHere
            simp only [Bool.decide_or, Bool.decide_and]
            simp [he, hl]
            exact ⟨fun hp => absurd (List.isPrefixOf_iff_prefix.mpr hp) he,
              fun hp => absurd (List.isPrefixOf_iff_prefix.mpr hp) hl⟩
          rw [h1, h2]
    · rw [if_neg hc, if_neg hc]
      simp

theorem statusAt_none_of_no_bar (l : List Char) (h : l.contains '|' = false) (p : Nat) :
    statusAt l p = none := by
  cases hd : l.drop p with
  | nil =>
    have : statusAt l p = none := by unfold statusAt; rw [hd]
    exact this
  | cons c cs =>
    have hcne : ¬ c = '|' := by
      intro hc; subst hc
      have hmem : ('|' : Char) ∈ l := (hd ▸ List.drop_sublist p l).mem (List.mem_cons_self _ _)
      have hco : l.contains '|' = true := List.elem_iff.mpr hmem
      rw [hco] at h; cases h
    have hrw : statusAt l p = if c = '|' then statusTail cs else none := by
      unfold statusAt; rw [hd]
    rw [hrw, if_neg hcne]

theorem extractParams_no_bracket : ∀ l : List Char, l.contains '[' = false →
    extractParams l = [] := by
  intro l
  induction l with
  | nil => intro _; simp [extractParams]
  | cons c cs ih =>
    intro h
    rw [List.contains_cons, Bool.or_eq_false_iff] at h
    have hc : ¬ c = '[' := by
      intro hc; subst hc; simp at h
    simp only [extractParams, if_neg hc]
    exact ih h.2

/-- C7, counterexample: on the message `"a | enter b"` — which has no trailing
status suffix — the extractor still sets `status` to `enter` and truncates the
message to `"a"`, because the status regex is not anchored to the end of the
string.  The claim's assertion that a non-trailing occurrence leaves status
unset and the message unchanged is therefore false. -/
theorem c7_counterexample :
    hasTrailingStatus ("a | enter b".toList) = false
    ∧ (parseMessageAndParams (fun _ => none) ("a | enter b".toList)).status
        = some JsStatus.enter
    ∧ (parseMessageAndParams (fun _ => none) ("a | enter b".toList)).message = "a".toList := by
  have hnb : ("a | enter b".toList).contains '[' = false := by decide
  have hps := extractParams_no_bracket _ hnb
  refine ⟨by decide, ?_, ?_⟩
  · simp only [parseMessageAndParams, hps, List.foldl_nil]
    decide
  · simp only [parseMessageAndParams, hps, List.foldl_nil]
    decide

/-- C7 (amended): after parameter removal, the *first* occurrence of
`| enter` or `| leave[, Nms]` — anywhere in the cleaned message, not only a
trailing one — is extracted: `status` and `duration` are taken from that
occurrence, and (on newline-free text) the message is truncated at that
occurrence and re-trimmed; when no occurrence exists, status and duration
remain unset and the message is unchanged by this step. -/
theorem c7_status_extraction_amended :
    (∀ msg : List Char, (∀ p, statusAt msg p = none) →
        extractStatus msg = (msg, none, none))
    ∧ (∀ (msg : List Char) (p : Nat) (k : JsStatus) (d : Option Nat) (n : Nat),
        msg.contains '\n' = false →
        statusAt msg p = some (k, d, n) →
        (∀ q, q < p → statusAt msg q = none) →
        extractStatus msg = (trimChars (msg.take p), some k, d)) := by
  constructor
  · intro msg hall
    unfold extractStatus
    rw [findStatus_none msg 0 hall]
  · intro msg p k d n hnl hp hlt
    have hfs : findStatus msg 0 = some (p + 0, k, d, n) :=
      findStatus_least msg 0 p k d n hp hlt
    rw [Nat.add_zero] at hfs
    have hrp : replAt msg p = true :=
      (replAt_iff_statusAt msg hnl p).mpr (by rw [hp]; rfl)
    have hrlt : ∀ q, q < p → replAt msg q = false := by
      intro q hq
      rw [Bool.eq_false_iff]
      intro hcon
      have := (replAt_iff_statusAt msg hnl q).mp hcon
      rw [hlt q hq] at this
      cases this
    have hfr : findReplacePos msg 0 = some (p + 0) := findReplacePos_least msg 0 p hrp hrlt
    rw [Nat.add_zero] at hfr
    unfold extractStatus
    rw [hfs, hfr]

/-- Witness for C7 at a concrete trailing `| leave, 5ms` suffix and at a
message with no occurrence. -/
theorem c7_witness :
    (("x | leave, 5ms".toList).contains '\n' = false)
    ∧ statusAt ("x | leave, 5ms".toList) 2 = some (JsStatus.leave, some 5, 11)
    ∧ extractStatus ("x | leave, 5ms".toList)
        = (trimChars (("x | leave, 5ms".toList).take 2), some JsStatus.leave, some 5)
    ∧ extractStatus ("abc".toList) = ("abc".toList, none, none) :=
  ⟨by decide, by decide,
   c7_status_extraction_amended.2 _ 2 JsStatus.leave (some 5) 11 (by decide) (by decide)
     (by decide),
   c7_status_extraction_amended.1 _
     (statusAt_none_of_no_bar ("abc".toList) (by decide))⟩

/-! ## C6: parameter-scan termination and unbalanced brackets -/

theorem extractParamsFuel_enough : ∀ (f : Nat) (l : List Char), l.length < f →
    extractParamsFuel f l = some (extractParams l) := by
  intro f
  induction f with
  | zero => intro l h; exact absurd h (Nat.not_lt_zero _)
  | succ f ih =>
    intro l h
    cases l with
    | nil => simp [extractParamsFuel, extractParams]
    | cons c cs =>
      simp only [List.length_cons] at h
      by_cases hc : c = '['
      · subst hc
        by_cases hd : (bracketScan cs 1 0).2.1 = 0
        · have hdrop : (cs.drop (bracketScan cs 1 0).1).length < f := by
            rw [List.length_drop]
            omega
          simp only [extractParamsFuel, extractParams, if_pos rfl, hd, if_true]
          rw [ih _ hdrop]
          rfl
        · simp only [extractParamsFuel, extractParams, if_pos rfl, hd, if_false]
          exact ih cs (by omega)
      · simp only [extractParamsFuel, extractParams, if_neg hc]
        exact ih cs (by omega)

/-- C6: the depth-tracked parameter scan of `parseMessageAndParams` terminates
— the fuelled rendition of the outer loop, one unit per iteration, finishes
within `length + 1` iterations on every input and computes `extractParams` —
a `[`-opened span whose inner scan never returns to bracket depth zero
contributes no parameter (the scan resumes one character later), and `[`/`]`
characters seen while the `{`/`}` brace depth is nonzero leave the bracket
depth unchanged. -/
theorem c6_param_scan_termination :
    (∀ l : List Char, extractParamsFuel (l.length + 1) l = some (extractParams l))
    ∧ (∀ cs : List Char, (bracketScan cs 1 0).2.1 ≠ 0 →
        extractParams ('[' :: cs) = extractParams cs)
    ∧ (∀ d b : Int, b ≠ 0 → scanUpd '[' d b = (d, b) ∧ scanUpd ']' d b = (d, b)) := by
  refine ⟨?_, ?_, ?_⟩
  · intro l
    exact extractParamsFuel_enough (l.length + 1) l (by omega)
  · intro cs hd
    simp only [extractParams, if_pos rfl, hd, if_false]
    simp
  · intro d b hb
    constructor
    · simp only [scanUpd, if_neg (by decide : ¬ ('[' : Char) = '{'),
        if_neg (by decide : ¬ ('[' : Char) = '}'), if_pos rfl, if_neg hb]
      simp
    · simp only [scanUpd, if_neg (by decide : ¬ (']' : Char) = '{'),
        if_neg (by decide : ¬ (']' : Char) = '}'),
        if_neg (by decide : ¬ (']' : Char) = '['), if_pos rfl, if_neg hb]
      simp

/-- Witness for C6: an unmatched `[` span, brace-protected brackets, and a
bounded-fuel run, all at concrete inputs. -/
theorem c6_witness :
    ((bracketScan ("a".toList) 1 0).2.1 ≠ 0)
    ∧ extractParams ('[' :: "a".toList) = extractParams ("a".toList)
    ∧ ((1 : Int) ≠ 0) ∧ scanUpd '[' 5 1 = (5, 1) ∧ scanUpd ']' 5 1 = (5, 1)
    ∧ extractParamsFuel (("x [a=1] y".toList).length + 1) ("x [a=1] y".toList)
        = some (extractParams ("x [a=1] y".toList)) :=
  ⟨by decide, c6_param_scan_termination.2.1 ("a".toList) (by decide), by decide,
   (c6_param_scan_termination.2.2 5 1 (by decide)).1,
   (c6_param_scan_termination.2.2 5 1 (by decide)).2,
   c6_param_scan_termination.1 ("x [a=1] y".toList)⟩

/-! ## C8: event extraction -/

/-- C8, counterexample: `c8llA`'s message contains the marker and its params
map contains a `msg` entry (the integer 0), yet no event is produced — the
code requires a *truthy* `msg`, not a present one.  Moreover `c8llB` carries a
present-but-falsy `details` parameter, and the produced event's `details` is
the empty mapping rather than that parameter value.  Both directions
contradict the claim as stated. -/
theorem c8_counterexample :
    isSubstr marker c8llA.message = true
    ∧ c8llA.params.lookup ("msg".toList) = some (JsVal.vInt 0)
    ∧ parseEventNotification c8llA = none
    ∧ c8llB.params.lookup ("details".toList) = some (JsVal.vInt 0)
    ∧ parseEventNotification c8llB = some c8evB
    ∧ c8evB.details ≠ JsVal.vInt 0 := by
  refine ⟨by decide, by decide, by decide, by decide, by decide, by decide⟩

/-- C8 (amended): `parseEventNotification` produces an event exactly when the
LogLine's (cleaned) message contains the marker and the params map contains a
*truthy* `msg` entry; when produced, the event's message is that `msg` value,
its details is the `details` parameter when truthy and the empty mapping
otherwise, and timestamp, level and line index are copied unchanged.  A
missing or falsy `msg` is a recoverable skip: no event, no error. -/
theorem c8_event_extraction_amended :
    (∀ ll : LogLine, (parseEventNotification ll).isSome
        ↔ (isSubstr marker ll.message = true
           ∧ ∃ v, ll.params.lookup ("msg".toList) = some v ∧ v.truthy = true))
    ∧ (∀ (ll : LogLine) (ev : EventNotification), parseEventNotification ll = some ev →
        ev.timestamp = ll.timestamp ∧ ev.level = ll.level ∧ ev.lineIndex = ll.lineIndex
        ∧ (∃ v, ll.params.lookup ("msg".toList) = some v ∧ v.truthy = true
            ∧ ev.message = v)
        ∧ ev.details = (match ll.params.lookup ("details".toList) with
                        | some d => if d.truthy then d else JsVal.vObj []
                        | none => JsVal.vObj [])) := by
  have hred : ∀ (ll : LogLine) (v : JsVal), isSubstr marker ll.message = true →
      ll.params.lookup ("msg".toList) = some v →
      parseEventNotification ll
        = if v.truthy = true then
            some { timestamp := ll.timestamp, level := ll.level, message := v,
                   details := (match ll.params.lookup ("details".toList) with
                               | some d => if d.truthy = true then d else JsVal.vObj []
                               | none => JsVal.vObj []),
                   lineIndex := ll.lineIndex }
          else none := by
    intro ll v hmk hlk
    unfold parseEventNotification
    rw [if_neg (by rw [hmk]; simp), hlk]
  have hredn : ∀ ll : LogLine, isSubstr marker ll.message = true →
      ll.params.lookup ("msg".toList) = none →
      parseEventNotification ll = none := by
    intro ll hmk hlk
    unfold parseEventNotification
    rw [if_neg (by rw [hmk]; simp), hlk]
  have hredm : ∀ ll : LogLine, ¬ isSubstr marker ll.message = true →
      parseEventNotification ll = none := by
    intro ll hmk
    unfold parseEventNotification
    rw [if_pos (by simpa using hmk)]
  constructor
  · intro ll
    by_cases hmk : isSubstr marker ll.message = true
    · cases hlk : ll.params.lookup ("msg".toList) with
      | none =>
        rw [hredn ll hmk hlk]
        simp only [Option.isSome_none, Bool.false_eq_true, false_iff, not_and]
        intro _
        rintro ⟨w, hw, _⟩
        cases hw
      | some v =>
        by_cases hv : v.truthy = true
        · rw [hred ll v hmk hlk, if_pos hv]
          simp only [Option.isSome_some, true_iff]
          exact ⟨hmk, v, rfl, hv⟩
        · rw [hred ll v hmk hlk, if_neg hv]
          simp only [Option.isSome_none, Bool.false_eq_true, false_iff, not_and]
          intro _
          rintro ⟨w, hw, hwt⟩
          rw [Option.some.injEq] at hw
          exact hv (hw ▸ hwt)
    · rw [hredm ll hmk]
      simp only [Option.isSome_none, Bool.false_eq_true, false_iff, not_and]
      intro hc
      exact absurd hc hmk
  · intro ll ev h
    by_cases hmk : isSubstr marker ll.message = true
    · cases hlk : ll.params.lookup ("msg".toList) with
      | none => rw [hredn ll hmk hlk] at h; cases h
      | some v =>
        by_cases hv : v.truthy = true
        · rw [hred ll v hmk hlk, if_pos hv, Option.some.injEq] at h
          subst h
          exact ⟨rfl, rfl, rfl, ⟨v, rfl, hv, rfl⟩, rfl⟩
        · rw [hred ll v hmk hlk, if_neg hv] at h; cases h
    · rw [hredm ll hmk] at h; cases h

/-- Witness for C8 at the concrete line `c8llB`. -/
theorem c8_witness :
    (parseEventNotification c8llB).isSome
    ∧ (c8evB.timestamp = c8llB.timestamp ∧ c8evB.level = c8llB.level
       ∧ c8evB.lineIndex = c8llB.lineIndex
       ∧ (∃ v, c8llB.params.lookup ("msg".toList) = some v ∧ v.truthy = true
           ∧ c8evB.message = v)
       ∧ c8evB.details = (match c8llB.params.lookup ("details".toList) with
                          | some d => if d.truthy then d else JsVal.vObj []
                          | none => JsVal.vObj [])) :=
  ⟨(c8_event_extraction_amended.1 c8llB).mpr
      ⟨by decide, JsVal.vStr ("E".toList), by decide, by decide⟩,
   c8_event_extraction_amended.2 c8llB c8evB (by decide)⟩

/-! ## C5: optional-bracket disambiguation -/

theorem optBracket_none_snd (l : List Char) (h : (optBracket l).1 = none) :
    (optBracket l).2 = l := by
  unfold optBracket at h ⊢
  cases ht : takeBracket l with
  | none => simp [ht]
  | some v => simp [ht] at h

/-- The optional groups of the line regex fill positionally: a later group can
only match if the earlier ones did. -/
theorem splitHeader_positional (line : List Char) (hd : Header)
    (h : splitHeader line = some hd) :
    (hd.part1 = none → hd.part2 = none) ∧ (hd.part2 = none → hd.part3 = none) := by
  rcases h1 : takeBracket line with _ | ⟨a1, r1⟩
  · simp [splitHeader, h1] at h
  rcases h2 : takeBracket r1 with _ | ⟨a2, r2⟩
  · simp [splitHeader, h1, h2] at h
  rcases h3 : takeBracket r2 with _ | ⟨a3, r3⟩
  · simp [splitHeader, h1, h2, h3] at h
  rcases h4 : takeBracket r3 with _ | ⟨a4, r4⟩
  · simp [splitHeader, h1, h2, h3, h4] at h
  simp only [splitHeader, h1, h2, h3, h4] at h
  split at h
  · cases h
  · rw [Option.some.injEq] at h
    subst h
    constructor
    · intro hn
      have hsnd := optBracket_none_snd r4 hn
      show (optBracket ((optBracket r4).2)).1 = none
      rw [hsnd]
      exact hn
    · intro hn
      have hsnd := optBracket_none_snd _ hn
      show (optBracket ((optBracket ((optBracket r4).2)).2)).1 = none
      rw [hsnd]
      exact hn

/-- C5: for every line matching the grammar, the optional bracketed fields
fill positionally (no later field without the earlier ones), and the
(sourceFile, lineNumber, functionName) disposition follows the claim's case
analysis: three present are positional; one present goes to sourceFile exactly
when it contains `.cpp` or `.h`, else to functionName; two present are
(sourceFile, lineNumber); zero present leaves all three unset. -/
theorem c5_optional_bracket_disambiguation :
    (∀ (jp : List Char → Option JsVal) (line : List Char) (n : Nat) (hd : Header),
      splitHeader line = some hd →
      (hd.part1 = none → hd.part2 = none) ∧ (hd.part2 = none → hd.part3 = none)
      ∧ ∃ ll, parseLine jp line n = some ll
          ∧ (ll.sourceFile, ll.lineNumber, ll.functionName)
              = assignParts hd.part1 hd.part2 hd.part3)
    ∧ (∀ a b c : List Char,
        assignParts (some a) (some b) (some c) = (some a, some b, some c))
    ∧ (∀ a : List Char, assignParts (some a) none none
        = if isSubstr (".cpp".toList) a ∨ isSubstr (".h".toList) a
          then (some a, none, none) else (none, none, some a))
    ∧ (∀ a b : List Char, assignParts (some a) (some b) none = (some a, some b, none))
    ∧ assignParts none none none = (none, none, none) := by
  refine ⟨?_, ?_, ?_, ?_, ?_⟩
  · intro jp line n hd h
    obtain ⟨hpos1, hpos2⟩ := splitHeader_positional line hd h
    have hp : parseLine jp line n
        = some { timestamp := hd.timestamp, level := hd.level, processId := hd.processId,
                 threadId := hd.threadId,
                 sourceFile := (assignParts hd.part1 hd.part2 hd.part3).1,
                 lineNumber := (assignParts hd.part1 hd.part2 hd.part3).2.1,
                 functionName := (assignParts hd.part1 hd.part2 hd.part3).2.2,
                 message := (parseMessageAndParams jp hd.rest).message,
                 params := (parseMessageAndParams jp hd.rest).params,
                 status := (parseMessageAndParams jp hd.rest).status,
                 duration := (parseMessageAndParams jp hd.rest).duration,
                 lineIndex := n } := by
      simp only [parseLine, h]
    exact ⟨hpos1, hpos2, _, hp, rfl⟩
  · intro a b c; simp [assignParts]
  · intro a; simp [assignParts]
  · intro a b; simp [assignParts]
  · simp [assignParts]

/-- Witness for C5 at a concrete log line with all three optional fields. -/
theorem c5_witness :
    splitHeader ("[t][I][1][2][a.cpp][33][fn] hi".toList)
        = some ⟨"t".toList, "I".toList, "1".toList, "2".toList,
            some ("a.cpp".toList), some ("33".toList), some ("fn".toList), "hi".toList⟩
    ∧ ∃ ll, parseLine (fun _ => none) ("[t][I][1][2][a.cpp][33][fn] hi".toList) 9 = some ll
        ∧ (ll.sourceFile, ll.lineNumber, ll.functionName)
            = assignParts (some ("a.cpp".toList)) (some ("33".toList)) (some ("fn".toList)) := by
  have h : splitHeader ("[t][I][1][2][a.cpp][33][fn] hi".toList)
      = some ⟨"t".toList, "I".toList, "1".toList, "2".toList,
          some ("a.cpp".toList), some ("33".toList), some ("fn".toList), "hi".toList⟩ := by
    decide
  exact ⟨h, (c5_optional_bracket_disambiguation.1 (fun _ => none) _ 9
    ⟨"t".toList, "I".toList, "1".toList, "2".toList,
      some ("a.cpp".toList), some ("33".toList), some ("fn".toList), "hi".toList⟩ h).2.2⟩

/-- C9 (amended): for every chunking of the file content, the pre-search line
count computed by `countLinesInFile` equals the number of `'\n'` occurrences
in the content, plus one more when the final segment after the last newline
(the last component of the `'\n'` split) is nonempty. -/
theorem c9_countLines_amended (chunks : List (List Char)) :
    countLinesInFile chunks
      = chunks.flatten.count '\n'
        + (if (splitNl chunks.flatten).getLastD [] = [] then 0 else 1) := by
  unfold countLinesInFile
  rw [countChunk_foldl chunks [] 0 (by simp)]
  simp only [List.nil_append, Nat.zero_add]
  rw [length_splitNl]
  split <;> simp_all

/-! ## Lemmas about `nodeStep` -/

/-- Shape of one `nodeStep`: the attempts buffer and the closed-node list are
untouched, or a matching `Recognition` event appends one attempt built from the
current nested buffer, or a matching `PipelineNode` event closes a node over
the current buffers and clears the attempts. -/
theorem nodeStep_shape (tid : Int) (s : ScanState) (e : TaskEvent) :
    ((nodeStep tid s e).recognitionAttempts = s.recognitionAttempts
      ∧ (nodeStep tid s e).nodes = s.nodes)
    ∨ ((e.message = "Node.Recognition.Succeeded" ∨ e.message = "Node.Recognition.Failed")
        ∧ e.details.task_id = some tid
        ∧ (nodeStep tid s e).recognitionAttempts
            = s.recognitionAttempts ++ [mkAttempt e s.nestedNodes]
        ∧ (nodeStep tid s e).nodes = s.nodes)
    ∨ ((e.message = "Node.PipelineNode.Succeeded" ∨ e.message = "Node.PipelineNode.Failed")
        ∧ e.details.task_id = some tid
        ∧ (nodeStep tid s e).recognitionAttempts = []
        ∧ (nodeStep tid s e).nodes
            = s.nodes ++ [mkNode tid e s.currentNextList s.recognitionAttempts]) := by
  by_cases h3 : e.message = "Node.Recognition.Succeeded"
      ∨ e.message = "Node.Recognition.Failed"
  · by_cases ht : e.details.task_id = some tid
    · refine Or.inr (Or.inl ⟨h3, ht, ?_, ?_⟩) <;>
        (rcases h3 with h | h <;> simp [nodeStep, h, ht])
    · refine Or.inl ⟨?_, ?_⟩ <;> (rcases h3 with h | h <;> simp [nodeStep, h, ht])
  · by_cases h4 : (e.message = "Node.PipelineNode.Succeeded"
        ∨ e.message = "Node.PipelineNode.Failed") ∧ e.details.task_id = some tid
    · obtain ⟨h4m, h4t⟩ := h4
      refine Or.inr (Or.inr ⟨h4m, h4t, ?_, ?_⟩) <;>
        (rcases h4m with h | h <;> simp [nodeStep, h, h4t])
    · refine Or.inl ⟨?_, ?_⟩ <;>
        · simp only [nodeStep, h3, h4, if_neg, if_false]
          split_ifs <;> simp_all

/-- Fold-level provenance: a property that holds of every attempt a matching
`Recognition` event of `es` could create, of every buffered attempt, and of
every attempt inside an already-closed node, holds of every attempt reachable
after folding the scan over `es`. -/
theorem foldl_attempts_from (tid : Int) (Q : RecognitionAttempt → Prop) :
    ∀ (es : List TaskEvent) (s : ScanState),
      (∀ e, e ∈ es →
        (e.message = "Node.Recognition.Succeeded" ∨ e.message = "Node.Recognition.Failed") →
        e.details.task_id = some tid → ∀ ns, Q (mkAttempt e ns)) →
      (∀ a, a ∈ s.recognitionAttempts → Q a) →
      (∀ n, n ∈ s.nodes → ∀ a, a ∈ n.recognition_attempts → Q a) →
      (∀ a, a ∈ (es.foldl (nodeStep tid) s).recognitionAttempts → Q a)
      ∧ (∀ n, n ∈ (es.foldl (nodeStep tid) s).nodes →
          ∀ a, a ∈ n.recognition_attempts → Q a) := by
  intro es
  induction es with
  | nil => intro s _ hbuf hnod; exact ⟨hbuf, hnod⟩
  | cons e rest ih =>
    intro s hev hbuf hnod
    rw [List.foldl_cons]
    refine ih (nodeStep tid s e) (fun x hx => hev x (List.mem_cons_of_mem e hx)) ?_ ?_
    · intro a ha
      rcases nodeStep_shape tid s e with ⟨hA, _⟩ | ⟨hm, ht, hA, _⟩ | ⟨_, _, hA, _⟩
      · exact hbuf a (hA ▸ ha)
      · rw [hA, List.mem_append] at ha
        rcases ha with ha | ha
        · exact hbuf a ha
        · rw [List.mem_singleton] at ha
          exact ha ▸ hev e (List.mem_cons_self e rest) hm ht s.nestedNodes
      · rw [hA] at ha; cases ha
    · intro n hn a ha
      rcases nodeStep_shape tid s e with ⟨_, hN⟩ | ⟨_, _, _, hN⟩ | ⟨_, _, _, hN⟩
      · exact hnod n (hN ▸ hn) a ha
      · exact hnod n (hN ▸ hn) a ha
      · rw [hN, List.mem_append] at hn
        rcases hn with hn | hn
        · exact hnod n hn a ha
        · rw [List.mem_singleton] at hn
          subst hn
          exact hbuf a ha

/-- C1 (counterexample): in `c1events`, the `RecognitionNode` event is tagged
with task 2, yet the nested node built from it ends up inside the recognition
attempt of task 1's node. -/
theorem c1_counterexample :
    c1events[1]?.map (fun e => e.details.task_id) = some (some 2)
    ∧ (getTaskNodes c1events 1).map
        (fun n => n.recognition_attempts.map RecognitionAttempt.nested_nodes)
      = [[some [c1foreignNested]]] := by
  exact ⟨by decide, by decide⟩

/-- C1 (amended): a `Node.Recognition.*` event of a different task clears the
nested-node buffer and changes nothing else; and every recognition attempt in
any node `getTaskNodes` returns is built from a `Node.Recognition.*` event of
the stream tagged with the requested task — cross-task isolation holds for the
attempts themselves but not for the nested nodes they carry. -/
theorem c1_cross_task_isolation_amended :
    (∀ (tid : Int) (s : ScanState) (e : TaskEvent),
        (e.message = "Node.Recognition.Succeeded" ∨ e.message = "Node.Recognition.Failed") →
        e.details.task_id ≠ some tid →
        nodeStep tid s e = { s with nestedNodes := [] })
    ∧ (∀ (events : List TaskEvent) (tid : Int) (n : NodeInfo) (a : RecognitionAttempt),
        n ∈ getTaskNodes events tid → a ∈ n.recognition_attempts →
        ∃ e, e ∈ events
          ∧ (e.message = "Node.Recognition.Succeeded" ∨ e.message = "Node.Recognition.Failed")
          ∧ e.details.task_id = some tid
          ∧ a.reco_id = e.details.reco_id ∧ a.name = jsOrS e.details.name ""
          ∧ a.timestamp = e.timestamp ∧ a.reco_details = e.details.reco_details) := by
  constructor
  · intro tid s e hmsg htid
    rcases hmsg with h | h <;> simp [nodeStep, h, htid]
  · intro events tid n a hn ha
    unfold getTaskNodes at hn
    rcases hr : findRangeAux tid events 0 none with ⟨st?, en?⟩
    rw [hr] at hn
    cases st? with
    | none => cases hn
    | some st =>
      simp only at hn
      have hmain := foldl_attempts_from tid
        (fun a => ∃ e, e ∈ events
          ∧ (e.message = "Node.Recognition.Succeeded" ∨ e.message = "Node.Recognition.Failed")
          ∧ e.details.task_id = some tid
          ∧ a.reco_id = e.details.reco_id ∧ a.name = jsOrS e.details.name ""
          ∧ a.timestamp = e.timestamp ∧ a.reco_details = e.details.reco_details)
        ((events.take (en?.getD (events.length - 1) + 1)).drop st) initScan
        (fun e he hm ht ns =>
          ⟨e, List.mem_of_mem_take (List.mem_of_mem_drop he), hm, ht, rfl, rfl, rfl, rfl⟩)
        (fun a ha => by cases ha)
        (fun n hn => by cases hn)
      exact hmain.2 n hn a ha

/-- C1 (witness): the guard equality at a concrete foreign `Recognition` event,
and the provenance of the concrete attempt of `c1events`' node. -/
theorem c1_witness :
    nodeStep 1 initScan c1foreignRecog = { initScan with nestedNodes := [] }
    ∧ ∃ e, e ∈ c1events
        ∧ (e.message = "Node.Recognition.Succeeded" ∨ e.message = "Node.Recognition.Failed")
        ∧ e.details.task_id = some 1
        ∧ c1attempt.reco_id = e.details.reco_id ∧ c1attempt.name = jsOrS e.details.name ""
        ∧ c1attempt.timestamp = e.timestamp
        ∧ c1attempt.reco_details = e.details.reco_details := by
  refine ⟨c1_cross_task_isolation_amended.1 1 initScan c1foreignRecog (Or.inr rfl) (by decide),
    c1_cross_task_isolation_amended.2 c1events 1 c1node c1attempt (by decide) (by decide)⟩

/-- How one `nodeStep` transforms the nested-node buffer and the overall
attempt account `allAttempts`. -/
theorem nodeStep_nested_allAttempts (tid : Int) (s : ScanState) (e : TaskEvent) :
    (nodeStep tid s e).nestedNodes
      = (if e.message = "Node.Recognition.Succeeded"
            ∨ e.message = "Node.Recognition.Failed" then []
         else if e.message = "Node.RecognitionNode.Succeeded"
            ∨ e.message = "Node.RecognitionNode.Failed" then s.nestedNodes ++ [mkNestedNode e]
         else s.nestedNodes)
    ∧ allAttempts (nodeStep tid s e)
      = allAttempts s
        ++ (if (e.message = "Node.Recognition.Succeeded"
                ∨ e.message = "Node.Recognition.Failed") ∧ e.details.task_id = some tid
            then [mkAttempt e s.nestedNodes] else []) := by
  by_cases h3 : e.message = "Node.Recognition.Succeeded"
      ∨ e.message = "Node.Recognition.Failed"
  · by_cases ht : e.details.task_id = some tid
    · refine ⟨?_, ?_⟩ <;>
        (rcases h3 with h | h <;> simp [nodeStep, allAttempts, h, ht, List.append_assoc])
    · refine ⟨?_, ?_⟩ <;> (rcases h3 with h | h <;> simp [nodeStep, allAttempts, h, ht])
  · by_cases h2 : e.message = "Node.RecognitionNode.Succeeded"
        ∨ e.message = "Node.RecognitionNode.Failed"
    · refine ⟨?_, ?_⟩ <;> (rcases h2 with h | h <;> simp [nodeStep, allAttempts, h])
    · by_cases h4 : (e.message = "Node.PipelineNode.Succeeded"
          ∨ e.message = "Node.PipelineNode.Failed") ∧ e.details.task_id = some tid
      · obtain ⟨h4m, h4t⟩ := h4
        refine ⟨?_, ?_⟩ <;>
          (rcases h4m with h | h <;>
            simp [nodeStep, allAttempts, mkNode, h, h4t, List.append_assoc])
      · refine ⟨?_, ?_⟩ <;>
          · simp only [nodeStep, allAttempts, h3, h2, h4, if_neg, if_false]
            split_ifs <;> simp_all

/-- Folding the scan extends the attempt account by exactly the attempt
sequence the event list generates. -/
theorem allAttempts_foldl (tid : Int) :
    ∀ (es : List TaskEvent) (s : ScanState),
      allAttempts (es.foldl (nodeStep tid) s)
        = allAttempts s ++ madeAttempts tid es s.nestedNodes := by
  intro es
  induction es with
  | nil => intro s; simp [madeAttempts]
  | cons e rest ih =>
    intro s
    rw [List.foldl_cons, ih (nodeStep tid s e)]
    obtain ⟨hn, ha⟩ := nodeStep_nested_allAttempts tid s e
    rw [ha, hn, List.append_assoc]
    congr 1
    by_cases h3 : e.message = "Node.Recognition.Succeeded"
        ∨ e.message = "Node.Recognition.Failed"
    · have h2 : ¬ (e.message = "Node.RecognitionNode.Succeeded"
          ∨ e.message = "Node.RecognitionNode.Failed") := by
        rcases h3 with h | h <;> rw [h] <;> decide
      by_cases ht : e.details.task_id = some tid
      · simp [madeAttempts, h3, h2, ht]
      · simp [madeAttempts, h3, h2, ht]
    · simp [madeAttempts, h3]

/-- C2 (counterexample): in `c2events`, the closing event's
`node_details.name` is present (the empty string), yet the produced node takes
its name from the event-level `name` field instead. -/
theorem c2_counterexample :
    c2events[1]?.map (fun e => e.details.node_details.bind NodeDetails.name) = some (some "")
    ∧ (getTaskNodes c2events 1).map NodeInfo.name = ["parent"]
    ∧ ("" : String) ≠ "parent" := by
  exact ⟨by decide, by decide, by decide⟩

/-- C2 (amended): a matching `Node.PipelineNode.*` event appends exactly one
node — named by a truthy `node_details.name`, else a truthy `name`, else "";
status mirroring Succeeded/Failed; snapshotting the current next list and the
whole pending-attempts buffer — and empties the buffer; globally, the attempts
accounted across all nodes plus the buffer form the generated attempt sequence,
so no attempt repeats across nodes. -/
theorem c2_node_closing_amended :
    (∀ (tid : Int) (s : ScanState) (e : TaskEvent),
        (e.message = "Node.PipelineNode.Succeeded" ∨ e.message = "Node.PipelineNode.Failed") →
        e.details.task_id = some tid →
        nodeStep tid s e
          = { s with
              nodes := s.nodes
                ++ [specCloseNode tid e s.currentNextList s.recognitionAttempts],
              recognitionAttempts := [] })
    ∧ (∀ (tid : Int) (es : List TaskEvent) (s : ScanState),
        allAttempts (es.foldl (nodeStep tid) s)
          = allAttempts s ++ madeAttempts tid es s.nestedNodes) := by
  constructor
  · intro tid s e hm ht
    rcases hm with h | h <;> simp [nodeStep, specCloseNode, mkNode, h, ht]
  · intro tid es s
    exact allAttempts_foldl tid es s

/-- C2 (witness): the closing step at the concrete `c2close` event over a
state with a nonempty buffer, and the attempt account of `c2events`. -/
theorem c2_witness :
    nodeStep 1 c2state c2close
      = { c2state with
          nodes := c2state.nodes
            ++ [specCloseNode 1 c2close c2state.currentNextList c2state.recognitionAttempts],
          recognitionAttempts := [] }
    ∧ allAttempts (c2events.foldl (nodeStep 1) initScan)
      = allAttempts initScan ++ madeAttempts 1 c2events initScan.nestedNodes := by
  refine ⟨c2_node_closing_amended.1 1 c2state c2close (Or.inl rfl) (by decide),
    c2_node_closing_amended.2 1 c2events initScan⟩

/-! ## Lemmas about `upsertKV` and `List.lookup` -/

theorem lookup_upsert_self (m : List (Int × TaskInfo)) (k : Int) (v : TaskInfo) :
    (upsertKV m k v).lookup k = some v := by
  induction m with
  | nil => simp [upsertKV, List.lookup]
  | cons p rest ih =>
    rcases p with ⟨a, b⟩
    by_cases h : a = k
    · subst h; simp [upsertKV, List.lookup]
    · have hb : (k == a) = false := beq_eq_false_iff_ne.mpr (fun hh => h hh.symm)
      simp [upsertKV, List.lookup, h, hb, ih]

theorem lookup_upsert_other (m : List (Int × TaskInfo)) (k k' : Int) (v : TaskInfo)
    (h : k' ≠ k) : (upsertKV m k v).lookup k' = m.lookup k' := by
  induction m with
  | nil =>
    have hb : (k' == k) = false := beq_eq_false_iff_ne.mpr h
    simp [upsertKV, List.lookup, hb]
  | cons p rest ih =>
    rcases p with ⟨a, b⟩
    by_cases ha : a = k
    · subst ha
      have hb : (k' == a) = false := beq_eq_false_iff_ne.mpr h
      simp [upsertKV, List.lookup, hb]
    · cases hba : (k' == a) <;> simp [upsertKV, List.lookup, ha, hba, ih]

theorem lookup_mem (m : List (Int × TaskInfo)) (k : Int) (t : TaskInfo)
    (h : m.lookup k = some t) : (k, t) ∈ m := by
  induction m with
  | nil => cases h
  | cons p rest ih =>
    rcases p with ⟨a, b⟩
    cases hba : (k == a) with
    | true =>
      have hka : k = a := eq_of_beq hba
      subst hka
      simp [List.lookup, hba] at h
      subst h
      exact List.mem_cons_self _ _
    | false =>
      simp [List.lookup, hba] at h
      exact List.mem_cons_of_mem _ (ih h)

/-! ## Lemmas about `tasksStep` -/

/-- Branch equation: a matching `Tasker.Task.Starting` upserts a fresh running
task. -/
theorem tasksStep_start_eq (getTime : String → Option Int) (m : List (Int × TaskInfo))
    (e : TaskEvent) (id : Int) (h1 : e.message = "Tasker.Task.Starting")
    (ht : e.details.task_id = some id) (hid : id ≠ 0) :
    tasksStep getTime m e = upsertKV m id
      { task_id := id, entry := jsOrS e.details.entry "", hash := jsOrS e.details.hash "",
        uuid := jsOrS e.details.uuid "", start_time := e.timestamp, end_time := none,
        status := "running", nodes := [], events := [e], duration := none } := by
  simp [tasksStep, h1, ht, hid]

/-- Branch equation: a matching terminal event upserts the mutated task. -/
theorem tasksStep_term_eq (getTime : String → Option Int) (m : List (Int × TaskInfo))
    (e : TaskEvent) (id : Int) (t : TaskInfo)
    (h2 : e.message = "Tasker.Task.Succeeded" ∨ e.message = "Tasker.Task.Failed")
    (ht : e.details.task_id = some id) (hid : id ≠ 0) (hlk : m.lookup id = some t) :
    tasksStep getTime m e = upsertKV m id
      { t with
        status := if e.message = "Tasker.Task.Succeeded" then "succeeded" else "failed",
        end_time := some e.timestamp,
        events := t.events ++ [e],
        duration :=
          if t.start_time ≠ "" ∧ e.timestamp ≠ "" then
            match getTime t.start_time, getTime e.timestamp with
            | some a, some b => some (b - a)
            | _, _ => none
          else t.duration } := by
  have h1 : ¬ e.message = "Tasker.Task.Starting" := by
    rcases h2 with h | h <;> rw [h] <;> decide
  rcases h2 with h | h <;> simp [tasksStep, h1, h, ht, hid, hlk]

/-- One `tasksStep` at a key no terminal event touches: either the event is
not a matching `Starting` and the entry at the key is unchanged, or it is and
the key now holds a running task. -/
theorem tasksStep_lookup_no_term (getTime : String → Option Int)
    (m : List (Int × TaskInfo)) (e : TaskEvent) (id : Int) (hid : id ≠ 0)
    (hnt : isTermFor e id = false) :
    (isStartFor e id = false ∧ (tasksStep getTime m e).lookup id = m.lookup id)
    ∨ (isStartFor e id = true ∧ ∃ t, (tasksStep getTime m e).lookup id = some t
        ∧ t.status = "running" ∧ t.task_id = id) := by
  by_cases h1 : e.message = "Tasker.Task.Starting"
  · cases ht : e.details.task_id with
    | none => exact Or.inl ⟨by simp [isStartFor, ht], by simp [tasksStep, h1, ht]⟩
    | some j =>
      by_cases hji : j = id
      · subst hji
        refine Or.inr ⟨by simp [isStartFor, h1, ht], ?_⟩
        rw [tasksStep_start_eq getTime m e j h1 ht hid]
        exact ⟨_, lookup_upsert_self m j _, rfl, rfl⟩
      · refine Or.inl ⟨by simp [isStartFor, ht, hji], ?_⟩
        by_cases hj : j = 0
        · subst hj; simp [tasksStep, h1, ht]
        · rw [tasksStep_start_eq getTime m e j h1 ht hj]
          exact lookup_upsert_other m j id _ (fun hh => hji hh.symm)
  · by_cases h2 : e.message = "Tasker.Task.Succeeded" ∨ e.message = "Tasker.Task.Failed"
    · refine Or.inl ⟨by simp [isStartFor, h1], ?_⟩
      cases ht : e.details.task_id with
      | none => rcases h2 with h | h <;> simp [tasksStep, h1, h, ht]
      | some j =>
        have hji : j ≠ id := by
          intro hh
          subst hh
          simp [isTermFor, h2, ht] at hnt
        by_cases hj : j = 0
        · subst hj; rcases h2 with h | h <;> simp [tasksStep, h1, h, ht]
        · cases hlk : m.lookup j with
          | none => rcases h2 with h | h <;> simp [tasksStep, h1, h, ht, hj, hlk]
          | some t =>
            rw [tasksStep_term_eq getTime m e j t h2 ht hj hlk]
            exact lookup_upsert_other m j id _ (fun hh => hji hh.symm)
    · refine Or.inl ⟨by simp [isStartFor, h1], ?_⟩
      simp [tasksStep, h1, h2]

/-- If a task starts somewhere in `es` (or is already running) and no event of
`es` terminates it, it is running in the folded map. -/
theorem foldl_tasksStep_running (getTime : String → Option Int) (id : Int) (hid : id ≠ 0) :
    ∀ (es : List TaskEvent) (m : List (Int × TaskInfo)),
      (∀ e, e ∈ es → isTermFor e id = false) →
      ((∃ e, e ∈ es ∧ isStartFor e id = true)
        ∨ (∃ t, m.lookup id = some t ∧ t.status = "running" ∧ t.task_id = id)) →
      ∃ t, (es.foldl (tasksStep getTime) m).lookup id = some t
        ∧ t.status = "running" ∧ t.task_id = id := by
  intro es
  induction es with
  | nil =>
    intro m _ hex
    rcases hex with ⟨e, he, _⟩ | h
    · cases he
    · exact h
  | cons e rest ih =>
    intro m hnt hex
    rw [List.foldl_cons]
    rcases tasksStep_lookup_no_term getTime m e id hid (hnt e (List.mem_cons_self e rest))
      with ⟨hsf, hsame⟩ | ⟨hst, t, hlk, hs, hti⟩
    · refine ih _ (fun x hx => hnt x (List.mem_cons_of_mem e hx)) ?_
      rcases hex with ⟨e0, he0, hs0⟩ | ⟨t, hlk, hP⟩
      · rcases List.mem_cons.mp he0 with rfl | he0'
        · rw [hsf] at hs0; cases hs0
        · exact Or.inl ⟨e0, he0', hs0⟩
      · exact Or.inr ⟨t, hsame ▸ hlk, hP⟩
    · exact ih _ (fun x hx => hnt x (List.mem_cons_of_mem e hx)) (Or.inr ⟨t, hlk, hs, hti⟩)

/-- C3: a matching `Tasker.Task.Starting` leaves a running task with the
event's timestamp at its id; a matching terminal event sets the mirrored
status, the end time, and the parsed duration `end - start`; and a task that
starts but never terminates is returned by `getTasks` as running, carrying the
nodes `getTaskNodes` computes for it. -/
theorem c3_task_lifecycle :
    (∀ (getTime : String → Option Int) (m : List (Int × TaskInfo)) (e : TaskEvent) (id : Int),
        e.message = "Tasker.Task.Starting" → e.details.task_id = some id → id ≠ 0 →
        ∃ t, (tasksStep getTime m e).lookup id = some t
          ∧ t.status = "running" ∧ t.start_time = e.timestamp ∧ t.task_id = id)
    ∧ (∀ (getTime : String → Option Int) (m : List (Int × TaskInfo)) (e : TaskEvent)
          (id : Int) (t : TaskInfo) (a b : Int),
        (e.message = "Tasker.Task.Succeeded" ∨ e.message = "Tasker.Task.Failed") →
        e.details.task_id = some id → id ≠ 0 → m.lookup id = some t →
        getTime "" = none → getTime t.start_time = some a → getTime e.timestamp = some b →
        ∃ t2, (tasksStep getTime m e).lookup id = some t2
          ∧ t2.status = (if e.message = "Tasker.Task.Succeeded" then "succeeded" else "failed")
          ∧ t2.end_time = some e.timestamp ∧ t2.duration = some (b - a)
          ∧ t2.start_time = t.start_time)
    ∧ (∀ (getTime : String → Option Int) (events : List TaskEvent) (id : Int),
        id ≠ 0 → (∃ e, e ∈ events ∧ isStartFor e id = true) →
        (∀ e, e ∈ events → isTermFor e id = false) →
        ∃ t, t ∈ getTasks getTime events ∧ t.task_id = id ∧ t.status = "running"
          ∧ t.nodes = getTaskNodes events id) := by
  refine ⟨?_, ?_, ?_⟩
  · intro getTime m e id h1 ht hid
    rw [tasksStep_start_eq getTime m e id h1 ht hid]
    exact ⟨_, lookup_upsert_self m id _, rfl, rfl, rfl⟩
  · intro getTime m e id t a b h2 ht hid hlk hgE hga hgb
    have hne1 : t.start_time ≠ "" := by
      intro hh; rw [hh, hgE] at hga; cases hga
    have hne2 : e.timestamp ≠ "" := by
      intro hh; rw [hh, hgE] at hgb; cases hgb
    rw [tasksStep_term_eq getTime m e id t h2 ht hid hlk]
    refine ⟨_, lookup_upsert_self m id _, rfl, rfl, ?_, rfl⟩
    simp only [hne1, hne2, ne_eq, not_false_iff, and_self, if_true, hga, hgb]
  · intro getTime events id hid hex hnt
    obtain ⟨t, hlk, hs, hti⟩ :=
      foldl_tasksStep_running getTime id hid events [] hnt (Or.inl hex)
    refine ⟨{ t with nodes := getTaskNodes events t.task_id }, ?_, hti, hs, by rw [hti]⟩
    unfold getTasks
    exact List.mem_map_of_mem _ (lookup_mem _ id t hlk)

/-- C3 (witness): the lifecycle at a concrete task — creation by `c3start`,
termination by `c3end` with duration 150, and the never-terminated stream
`c3events`. -/
theorem c3_witness :
    (∃ t, (tasksStep c3getTime [] c3start).lookup 1 = some t
      ∧ t.status = "running" ∧ t.start_time = c3start.timestamp ∧ t.task_id = 1)
    ∧ (∃ t2, (tasksStep c3getTime [(1, c3run)] c3end).lookup 1 = some t2
      ∧ t2.status = (if c3end.message = "Tasker.Task.Succeeded" then "succeeded" else "failed")
      ∧ t2.end_time = some c3end.timestamp ∧ t2.duration = some (250 - 100)
      ∧ t2.start_time = c3run.start_time)
    ∧ (∃ t, t ∈ getTasks c3getTime c3events ∧ t.task_id = 1 ∧ t.status = "running"
      ∧ t.nodes = getTaskNodes c3events 1) := by
  refine ⟨c3_task_lifecycle.1 c3getTime [] c3start 1 rfl (by decide) (by decide),
    c3_task_lifecycle.2.1 c3getTime [(1, c3run)] c3end 1 c3run 100 250 (Or.inl rfl)
      (by decide) (by decide) (by decide) (by decide) (by decide) (by decide),
    c3_task_lifecycle.2.2 c3getTime c3events 1 (by decide)
      ⟨c3start, by decide, by decide⟩ (by decide)⟩

/-! ## The range computation of `getTaskNodes`, structurally -/

theorem start_not_term (e : TaskEvent) (tid : Int) (h : isStartFor e tid = true) :
    isTermFor e tid = false := by
  simp only [isStartFor, decide_eq_true_eq] at h
  simp [isTermFor, h.1]

/-- The index loop computes the last matching start before the first matching
terminal (falling back to the incoming accumulator) and the first matching
terminal, both shifted by the running index. -/
theorem findRangeAux_char (tid : Int) :
    ∀ (l : List TaskEvent) (i : Nat) (st : Option Nat),
      findRangeAux tid l i st
        = ((lastStartB4 tid l).elim st (fun k => some (k + i)),
           (firstTermIdx tid l).map (· + i)) := by
  intro l
  induction l with
  | nil => intro i st; simp [findRangeAux, lastStartB4, firstTermIdx]
  | cons e rest ih =>
    intro i st
    by_cases hT : isTermFor e tid
    · by_cases hS : isStartFor e tid <;>
        simp [findRangeAux, lastStartB4, firstTermIdx, hT, hS, Nat.zero_add]
    · have hstep : findRangeAux tid (e :: rest) i st
          = findRangeAux tid rest (i + 1) (if isStartFor e tid then some i else st) := by
        simp [findRangeAux, hT]
      rw [hstep, ih, Prod.mk.injEq]
      constructor
      · cases hr : lastStartB4 tid rest with
        | none =>
          by_cases hS : isStartFor e tid <;>
            simp [lastStartB4, hT, hr, hS, Nat.zero_add]
        | some k =>
          simp [lastStartB4, hT, hr, Nat.add_assoc, Nat.add_comm, Nat.add_left_comm]
      · cases hf : firstTermIdx tid rest with
        | none => simp [firstTermIdx, hT, hf]
        | some k =>
          simp [firstTermIdx, hT, hf, Nat.add_assoc, Nat.add_comm, Nat.add_left_comm]

/-- The structural tail is the drop at the last matching start. -/
theorem tailFromLastStart_eq (tid : Int) :
    ∀ l : List TaskEvent,
      tailFromLastStart tid l = (lastStartB4 tid l).map (fun k => l.drop k) := by
  intro l
  induction l with
  | nil => simp [tailFromLastStart, lastStartB4]
  | cons e rest ih =>
    by_cases hT : isTermFor e tid
    · have hS : isStartFor e tid = false := by
        cases hq : isStartFor e tid
        · rfl
        · rw [start_not_term e tid hq] at hT; cases hT
      simp [tailFromLastStart, lastStartB4, hT, hS]
    · by_cases hS : isStartFor e tid <;>
        cases hr : lastStartB4 tid rest <;>
        · have h2 := ih
          rw [hr] at h2
          simp only [Option.map] at h2
          simp [tailFromLastStart, lastStartB4, hT, hS, hr, h2]

/-- Truncation at the first matching terminal is a take at its index. -/
theorem truncAtTerm_char (tid : Int) :
    ∀ m : List TaskEvent,
      truncAtTerm tid m
        = (match firstTermIdx tid m with
           | some k => m.take (k + 1)
           | none => m) := by
  intro m
  induction m with
  | nil => simp [truncAtTerm, firstTermIdx]
  | cons e rest ih =>
    by_cases hT : isTermFor e tid
    · simp [truncAtTerm, firstTermIdx, hT]
    · cases hf : firstTermIdx tid rest with
      | none =>
        rw [hf] at ih
        simp only at ih
        simp [truncAtTerm, firstTermIdx, hT, hf, ih]
      | some k =>
        rw [hf] at ih
        simp only at ih
        simp [truncAtTerm, firstTermIdx, hT, hf, ih]

/-- The last matching start lies at or before the first matching terminal, and
dropping to it shifts the terminal index accordingly. -/
theorem lastStart_firstTerm_drop (tid : Int) :
    ∀ (l : List TaskEvent) (s k : Nat), lastStartB4 tid l = some s →
      firstTermIdx tid l = some k →
      s ≤ k ∧ firstTermIdx tid (l.drop s) = some (k - s) := by
  intro l
  induction l with
  | nil => intro s k hs _; cases hs
  | cons e rest ih =>
    intro s k hs hk
    by_cases hT : isTermFor e tid
    · have hS : isStartFor e tid = false := by
        cases hq : isStartFor e tid
        · rfl
        · rw [start_not_term e tid hq] at hT; cases hT
      simp [lastStartB4, hT, hS] at hs
    · have hk' : ∃ k0, firstTermIdx tid rest = some k0 ∧ k = k0 + 1 := by
        simp only [firstTermIdx, hT, if_false] at hk
        cases hf : firstTermIdx tid rest with
        | none => rw [hf] at hk; cases hk
        | some k0 =>
          rw [hf] at hk
          simp only [Option.map] at hk
          exact ⟨k0, rfl, (Option.some.injEq _ _ ▸ hk).symm⟩
      obtain ⟨k0, hf, rfl⟩ := hk'
      cases hr : lastStartB4 tid rest with
      | some s0 =>
        have hs' : s = s0 + 1 := by
          simp only [lastStartB4, hT, if_false, hr] at hs
          exact (Option.some.injEq _ _ ▸ hs).symm
        obtain ⟨hle, hdrop⟩ := ih s0 k0 hr hf
        subst hs'
        refine ⟨by omega, ?_⟩
        rw [List.drop_succ_cons, hdrop]
        congr 1
        omega
      | none =>
        by_cases hS : isStartFor e tid
        · have hs0 : s = 0 := by
            simp only [lastStartB4, hT, if_false, hr, hS, if_true] at hs
            exact (Option.some.injEq _ _ ▸ hs).symm
          subst hs0
          refine ⟨Nat.zero_le _, ?_⟩
          simp only [List.drop_zero, Nat.sub_zero]
          simp [firstTermIdx, hT, hf]
        · simp [lastStartB4, hT, hr, hS] at hs

/-- An absent first terminal means no event of the list is terminal. -/
theorem firstTermIdx_none (tid : Int) :
    ∀ l : List TaskEvent, firstTermIdx tid l = none →
      ∀ e, e ∈ l → isTermFor e tid = false := by
  intro l
  induction l with
  | nil => intro _ e he; cases he
  | cons x rest ih =>
    intro h e he
    by_cases hT : isTermFor x tid
    · simp [firstTermIdx, hT] at h
    · rcases List.mem_cons.mp he with rfl | he'
      · simp only [Bool.not_eq_true] at hT; exact hT
      · refine ih ?_ e he'
        simp only [firstTermIdx, hT, if_false] at h
        cases hf : firstTermIdx tid rest with
        | none => rfl
        | some k => rw [hf] at h; cases h

/-- With no terminal event, truncation is the identity. -/
theorem truncAtTerm_of_no_term (tid : Int) :
    ∀ m : List TaskEvent, (∀ e, e ∈ m → isTermFor e tid = false) →
      truncAtTerm tid m = m := by
  intro m
  induction m with
  | nil => intro _; rfl
  | cons x rest ih =>
    intro h
    have hx := h x (List.mem_cons_self x rest)
    simp [truncAtTerm, hx, ih (fun e he => h e (List.mem_cons_of_mem x he))]

/-- The index-and-slice computation of `getTaskNodes` agrees with its
structural counterpart. -/
theorem getTaskNodes_eq_S (events : List TaskEvent) (tid : Int) :
    getTaskNodes events tid = getTaskNodesS events tid := by
  unfold getTaskNodes getTaskNodesS
  rw [findRangeAux_char tid events 0 none, tailFromLastStart_eq tid events]
  cases hL : lastStartB4 tid events with
  | none => simp
  | some st =>
    cases hK : firstTermIdx tid events with
    | some k =>
      obtain ⟨hle, hdrop⟩ := lastStart_firstTerm_drop tid events st k hL hK
      have hslice : (events.take (k + 1)).drop st = truncAtTerm tid (events.drop st) := by
        rw [truncAtTerm_char, hdrop]
        simp only
        rw [List.drop_take]
        congr 1
        omega
      simp only [Option.elim, Option.map, Option.getD, Nat.add_zero]
      rw [hslice]
    | none =>
      have hne : events ≠ [] := by
        intro hh; rw [hh] at hL; simp [lastStartB4] at hL
      have hlen : 0 < events.length := List.length_pos.mpr hne
      have htake : events.take (events.length - 1 + 1) = events := by
        rw [show events.length - 1 + 1 = events.length from by omega]
        exact List.take_length events
      have htr : truncAtTerm tid (events.drop st) = events.drop st :=
        truncAtTerm_of_no_term tid _
          (fun e he => firstTermIdx_none tid events hK e (List.mem_of_mem_drop he))
      simp only [Option.elim, Option.map, Option.getD, Nat.add_zero]
      rw [htake, htr]

/-- Tasker-level events do not touch the node scan. -/
theorem nodeStep_inert (tid : Int) (s : ScanState) (e : TaskEvent)
    (h : e.message = "Tasker.Task.Starting" ∨ e.message = "Tasker.Task.Succeeded"
      ∨ e.message = "Tasker.Task.Failed") :
    nodeStep tid s e = s := by
  rcases h with h | h | h <;> simp [nodeStep, h]

/-- A falsy `task_id` (absent or zero) makes `tasksStep` a no-op, whatever the
message. -/
theorem tasksStep_falsy (getTime : String → Option Int) (m : List (Int × TaskInfo))
    (e : TaskEvent) (ht : e.details.task_id = none ∨ e.details.task_id = some 0) :
    tasksStep getTime m e = m := by
  by_cases h1 : e.message = "Tasker.Task.Starting"
  · rcases ht with ht | ht <;> simp [tasksStep, h1, ht]
  · by_cases h2 : e.message = "Tasker.Task.Succeeded" ∨ e.message = "Tasker.Task.Failed"
    · rcases ht with ht | ht <;> simp [tasksStep, h1, h2, ht]
    · simp [tasksStep, h1, h2]

/-- Inserting an event that is neither a matching start nor a matching
terminal either leaves both tails absent, keeps the inserted event inside the
tail at the same split, or leaves the tail (a suffix of the part after the
insertion) unchanged. -/
theorem tailFromLastStart_insert (tid : Int) (e : TaskEvent)
    (hS : isStartFor e tid = false) (hT : isTermFor e tid = false) :
    ∀ l1 l2 : List TaskEvent,
      (tailFromLastStart tid (l1 ++ e :: l2) = none
        ∧ tailFromLastStart tid (l1 ++ l2) = none)
      ∨ (∃ u v, tailFromLastStart tid (l1 ++ e :: l2) = some (u ++ e :: v)
          ∧ tailFromLastStart tid (l1 ++ l2) = some (u ++ v))
      ∨ (∃ w, tailFromLastStart tid (l1 ++ e :: l2) = some w
          ∧ tailFromLastStart tid (l1 ++ l2) = some w) := by
  intro l1
  induction l1 with
  | nil =>
    intro l2
    have hstep : tailFromLastStart tid (e :: l2) = tailFromLastStart tid l2 := by
      simp [tailFromLastStart, hT, hS]
    cases hr : tailFromLastStart tid l2 with
    | none => exact Or.inl ⟨by simp [hstep, hr], hr⟩
    | some w => exact Or.inr (Or.inr ⟨w, by simp [hstep, hr], hr⟩)
  | cons x l1' ih =>
    intro l2
    by_cases hxT : isTermFor x tid
    · exact Or.inl ⟨by simp [tailFromLastStart, hxT], by simp [tailFromLastStart, hxT]⟩
    · by_cases hxS : isStartFor x tid
      · rcases ih l2 with ⟨h1, h2⟩ | ⟨u, v, h1, h2⟩ | ⟨w, h1, h2⟩
        · refine Or.inr (Or.inl ⟨x :: l1', l2, ?_, ?_⟩) <;>
            simp [tailFromLastStart, hxT, hxS, h1, h2]
        · refine Or.inr (Or.inl ⟨u, v, ?_, ?_⟩) <;>
            simp [tailFromLastStart, hxT, hxS, h1, h2]
        · refine Or.inr (Or.inr ⟨w, ?_, ?_⟩) <;>
            simp [tailFromLastStart, hxT, hxS, h1, h2]
      · have g1 : tailFromLastStart tid ((x :: l1') ++ e :: l2)
            = tailFromLastStart tid (l1' ++ e :: l2) := by
          simp [tailFromLastStart, hxT, hxS]
        have g2 : tailFromLastStart tid ((x :: l1') ++ l2)
            = tailFromLastStart tid (l1' ++ l2) := by
          simp [tailFromLastStart, hxT, hxS]
        rw [g1, g2]
        exact ih l2

/-- Inserting a non-terminal event commutes with truncation: it stays inside
the truncated part at the same split, or the truncation stops before it. -/
theorem truncAtTerm_insert (tid : Int) (e : TaskEvent) (hT : isTermFor e tid = false) :
    ∀ u v : List TaskEvent,
      (∃ u2 v2, truncAtTerm tid (u ++ e :: v) = u2 ++ e :: v2
          ∧ truncAtTerm tid (u ++ v) = u2 ++ v2)
      ∨ truncAtTerm tid (u ++ e :: v) = truncAtTerm tid (u ++ v) := by
  intro u
  induction u with
  | nil =>
    intro v
    exact Or.inl ⟨[], truncAtTerm tid v, by simp [truncAtTerm, hT], rfl⟩
  | cons x u' ih =>
    intro v
    by_cases hxT : isTermFor x tid
    · exact Or.inr (by simp [truncAtTerm, hxT])
    · rcases ih v with ⟨u2, v2, h1, h2⟩ | h
      · exact Or.inl ⟨x :: u2, v2, by simp [truncAtTerm, hxT, h1], by simp [truncAtTerm, hxT, h2]⟩
      · exact Or.inr (by simp [truncAtTerm, hxT, h])

/-- A scan-inert event can be removed from under the fold. -/
theorem foldl_nodeStep_skip (tid : Int) (e : TaskEvent)
    (hin : ∀ s, nodeStep tid s e = s) (u v : List TaskEvent) (s0 : ScanState) :
    (u ++ e :: v).foldl (nodeStep tid) s0 = (u ++ v).foldl (nodeStep tid) s0 := by
  rw [List.foldl_append, List.foldl_append, List.foldl_cons, hin]

/-- Removing a Tasker-level event that matches no start or terminal of the
requested task leaves `getTaskNodes` unchanged. -/
theorem getTaskNodes_insert (tid : Int) (e : TaskEvent)
    (hmsg : e.message = "Tasker.Task.Starting" ∨ e.message = "Tasker.Task.Succeeded"
      ∨ e.message = "Tasker.Task.Failed")
    (hS : isStartFor e tid = false) (hT : isTermFor e tid = false)
    (l1 l2 : List TaskEvent) :
    getTaskNodes (l1 ++ e :: l2) tid = getTaskNodes (l1 ++ l2) tid := by
  rw [getTaskNodes_eq_S, getTaskNodes_eq_S]
  unfold getTaskNodesS
  rcases tailFromLastStart_insert tid e hS hT l1 l2 with ⟨h1, h2⟩ | ⟨u, v, h1, h2⟩ | ⟨w, h1, h2⟩
  · rw [h1, h2]
  · rw [h1, h2]
    simp only
    rcases truncAtTerm_insert tid e hT u v with ⟨u2, v2, g1, g2⟩ | g
    · rw [g1, g2]
      exact congrArg ScanState.nodes
        (foldl_nodeStep_skip tid e (fun s => nodeStep_inert tid s e hmsg) u2 v2 initScan)
    · rw [g]
  · rw [h1, h2]

/-- Membership after an upsert: the upserted pair or an original entry. -/
theorem mem_upsertKV {α β : Type} [DecidableEq α] (m : List (α × β)) (k : α) (v : β)
    (p : α × β) (h : p ∈ upsertKV m k v) : p = (k, v) ∨ p ∈ m := by
  induction m with
  | nil =>
    simp only [upsertKV, List.mem_singleton] at h
    exact Or.inl h
  | cons q rest ih =>
    rcases q with ⟨a, b⟩
    by_cases ha : a = k
    · subst ha
      simp only [upsertKV, if_pos rfl] at h
      rcases List.mem_cons.mp h with rfl | hmem
      · exact Or.inl rfl
      · exact Or.inr (List.mem_cons_of_mem _ hmem)
    · simp only [upsertKV, if_neg ha] at h
      rcases List.mem_cons.mp h with rfl | hmem
      · exact Or.inr (List.mem_cons_self _ _)
      · rcases ih hmem with h1 | h2
        · exact Or.inl h1
        · exact Or.inr (List.mem_cons_of_mem _ h2)

/-- One `tasksStep` keeps every stored task's id nonzero. -/
theorem tasksStep_key_nonzero (getTime : String → Option Int) (m : List (Int × TaskInfo))
    (e : TaskEvent) (hm : ∀ p, p ∈ m → p.2.task_id ≠ 0) :
    ∀ p, p ∈ tasksStep getTime m e → p.2.task_id ≠ 0 := by
  intro p hp
  cases hfal : e.details.task_id with
  | none =>
    rw [tasksStep_falsy getTime m e (Or.inl hfal)] at hp
    exact hm p hp
  | some j =>
    by_cases hj : j = 0
    · subst hj
      rw [tasksStep_falsy getTime m e (Or.inr hfal)] at hp
      exact hm p hp
    · by_cases h1 : e.message = "Tasker.Task.Starting"
      · rw [tasksStep_start_eq getTime m e j h1 hfal hj] at hp
        rcases mem_upsertKV m j _ p hp with hpe | hpm
        · rw [hpe]; exact hj
        · exact hm p hpm
      · by_cases h2 : e.message = "Tasker.Task.Succeeded" ∨ e.message = "Tasker.Task.Failed"
        · cases hlk : m.lookup j with
          | none =>
            have hid : tasksStep getTime m e = m := by
              rcases h2 with h | h <;> simp [tasksStep, h1, h, hfal, hj, hlk]
            rw [hid] at hp
            exact hm p hp
          | some t =>
            rw [tasksStep_term_eq getTime m e j t h2 hfal hj hlk] at hp
            rcases mem_upsertKV m j _ p hp with hpe | hpm
            · rw [hpe]
              exact hm (j, t) (lookup_mem m j t hlk)
            · exact hm p hpm
        · have hid : tasksStep getTime m e = m := by simp [tasksStep, h1, h2]
          rw [hid] at hp
          exact hm p hp

/-- The folded task map stores only nonzero task ids. -/
theorem foldl_tasksStep_key_nonzero (getTime : String → Option Int) :
    ∀ (es : List TaskEvent) (m : List (Int × TaskInfo)),
      (∀ p, p ∈ m → p.2.task_id ≠ 0) →
      ∀ p, p ∈ es.foldl (tasksStep getTime) m → p.2.task_id ≠ 0 := by
  intro es
  induction es with
  | nil => intro m hm; exact hm
  | cons e rest ih =>
    intro m hm
    rw [List.foldl_cons]
    exact ih _ (tasksStep_key_nonzero getTime m e hm)

/-- C10: an event with an absent or zero `task_id` is a `tasksStep` no-op
(whatever its message), and removing such a `Tasker.Task.*` event from the
stream leaves the entire `getTasks` output unchanged. -/
theorem c10_falsy_task_id :
    (∀ (getTime : String → Option Int) (m : List (Int × TaskInfo)) (e : TaskEvent),
        e.details.task_id = none ∨ e.details.task_id = some 0 →
        tasksStep getTime m e = m)
    ∧ (∀ (getTime : String → Option Int) (l1 l2 : List TaskEvent) (e : TaskEvent),
        (e.message = "Tasker.Task.Starting" ∨ e.message = "Tasker.Task.Succeeded"
          ∨ e.message = "Tasker.Task.Failed") →
        e.details.task_id = none ∨ e.details.task_id = some 0 →
        getTasks getTime (l1 ++ e :: l2) = getTasks getTime (l1 ++ l2)) := by
  refine ⟨fun getTime m e ht => tasksStep_falsy getTime m e ht, ?_⟩
  intro getTime l1 l2 e hmsg ht
  simp only [getTasks]
  have hm : (l1 ++ e :: l2).foldl (tasksStep getTime) []
      = (l1 ++ l2).foldl (tasksStep getTime) [] := by
    rw [List.foldl_append, List.foldl_append, List.foldl_cons,
      tasksStep_falsy getTime _ e ht]
  rw [hm]
  refine List.map_congr_left ?_
  intro kv hkv
  have hkey : kv.2.task_id ≠ 0 :=
    foldl_tasksStep_key_nonzero getTime (l1 ++ l2) [] (fun p hp => by cases hp) kv hkv
  have hS : isStartFor e kv.2.task_id = false := by
    have hns : ¬ (e.message = "Tasker.Task.Starting"
        ∧ e.details.task_id = some kv.2.task_id) := by
      rintro ⟨-, hh⟩
      rcases ht with ht | ht
      · rw [ht] at hh; cases hh
      · rw [ht] at hh
        exact hkey (Option.some.injEq 0 kv.2.task_id ▸ hh).symm
    simp only [isStartFor, decide_eq_false_iff_not]
    exact hns
  have hT : isTermFor e kv.2.task_id = false := by
    have hns : ¬ ((e.message = "Tasker.Task.Succeeded" ∨ e.message = "Tasker.Task.Failed")
        ∧ e.details.task_id = some kv.2.task_id) := by
      rintro ⟨-, hh⟩
      rcases ht with ht | ht
      · rw [ht] at hh; cases hh
      · rw [ht] at hh
        exact hkey (Option.some.injEq 0 kv.2.task_id ▸ hh).symm
    simp only [isTermFor, decide_eq_false_iff_not]
    exact hns
  rw [getTaskNodes_insert kv.2.task_id e hmsg hS hT l1 l2]

/-- C10 (witness): the no-op step and the stream-identity at the concrete
zero-id event `c10ev`. -/
theorem c10_witness :
    tasksStep c3getTime [] c10ev = []
    ∧ getTasks c3getTime (c3events ++ c10ev :: []) = getTasks c3getTime (c3events ++ []) := by
  exact ⟨c10_falsy_task_id.1 c3getTime [] c10ev (Or.inr rfl),
    c10_falsy_task_id.2 c3getTime c3events [] c10ev (Or.inl rfl) (Or.inr rfl)⟩

end MaaLog
